import Mathlib

set_option maxHeartbeats 1000000

namespace InternalLink

/-! Shallow embedding of the internal-link repository (Go).

Go strings are modelled as `List Char` (byte positions coincide with
character positions on the ASCII inputs of interest).  Go `map[K]V`
values are modelled as association lists with key-based lookup; real
Go maps have distinct keys, which appears as `Nodup` hypotheses where
a theorem needs it.  `float64` arithmetic is modelled over `ℝ`.
Context strings (`WordOccurrence.Context`, `extractContext`) are not
modelled: no claim mentions them. -/

/-- Key-based lookup in an association list: the model of a Go map read. -/
def lookupA {α β : Type _} [DecidableEq α] (k : α) : List (α × β) → Option β
  | [] => none
  | p :: ps => if p.1 = k then some p.2 else lookupA k ps

/-- Model of `strings.Fields`: split on whitespace, dropping empty pieces.
`cur` is the (reversed) word being accumulated. -/
def fieldsChGo (cur : List Char) : List Char → List (List Char)
  | [] => if cur.isEmpty then [] else [cur.reverse]
  | c :: cs =>
    if c.isWhitespace then
      if cur.isEmpty then fieldsChGo [] cs else cur.reverse :: fieldsChGo [] cs
    else fieldsChGo (c :: cur) cs

/-- `strings.Fields` on a character list. -/
def fieldsCh (s : List Char) : List (List Char) := fieldsChGo [] s

/-- Model of `strings.Join(ws, " ")`. -/
def joinSpace : List (List Char) → List Char
  | [] => []
  | [w] => w
  | w :: ws => w ++ ' ' :: joinSpace ws

/-- Model of `strings.ToLower`. -/
def toLowerCh (w : List Char) : List Char := w.map Char.toLower

/-! ## The BM25 scorer (src/pkg/scorer/scorer.go) -/

/-- `scorer.Document`: path plus term-frequency table (Go `map[string]int`). -/
structure Document where
  Path : List Char
  WordFreq : List (List Char × Int)
deriving DecidableEq

/-- `scorer.BM25Scorer`. -/
structure BM25Scorer where
  k1 : ℝ
  b : ℝ
  docs : List Document
  avgdl : ℝ
  idf : List (List Char × ℝ)
  maxNGram : Nat

/-- `scorer.NewBM25Scorer`. -/
noncomputable def newBM25Scorer (maxNGram : Nat) : BM25Scorer :=
  { k1 := 1.2, b := 0.75, docs := [], avgdl := 0, idf := [], maxNGram := maxNGram }

/-- The `docCount` loop of `calculateIDF`: how many registered documents
contain `term`. -/
def docCount (docs : List Document) (term : List Char) : Nat :=
  (docs.filter fun d => (lookupA term d.WordFreq).isSome).length

/-- The IDF formula of `calculateIDF`: `math.Log(1 + (N-df+0.5)/(df+0.5))`. -/
noncomputable def idfValue (N df : Nat) : ℝ :=
  Real.log (1 + ((N : ℝ) - (df : ℝ) + 0.5) / ((df : ℝ) + 0.5))

/-- Inner loop of `calculateIDF` over one document's terms: terms that
already have a cached IDF are skipped, new terms are computed from the
current corpus `docs`. -/
noncomputable def addIDFTerms (docs : List Document) (idf : List (List Char × ℝ))
    (freq : List (List Char × Int)) : List (List Char × ℝ) :=
  freq.foldl
    (fun acc p =>
      if (lookupA p.1 acc).isSome then acc
      else acc ++ [(p.1, idfValue docs.length (docCount docs p.1))])
    idf

/-- `BM25Scorer.calculateIDF`, run on corpus `docs` with cache `idf0`. -/
noncomputable def calculateIDF (docs : List Document) (idf0 : List (List Char × ℝ)) :
    List (List Char × ℝ) :=
  docs.foldl (fun acc d => addIDFTerms docs acc d.WordFreq) idf0

/-- `BM25Scorer.ProcessDocument`: append the document, recompute the average
document length `avgdl` (document length = size of the frequency table),
then update the IDF cache. -/
noncomputable def processDocument (s : BM25Scorer) (doc : Document) : BM25Scorer :=
  let docs := s.docs ++ [doc]
  let avgdl : ℝ := (((docs.map fun d => d.WordFreq.length).sum : ℕ) : ℝ) / ((docs.length : ℕ) : ℝ)
  { s with docs := docs, avgdl := avgdl, idf := calculateIDF docs s.idf }

/-- A scorer state reached by processing the documents `ds` in order,
starting from `NewBM25Scorer maxNGram`. -/
noncomputable def scorerOf (maxNGram : Nat) (ds : List Document) : BM25Scorer :=
  ds.foldl processDocument (newBM25Scorer maxNGram)

/-- The n-gram `strings.Join(queryTerms[i:i+n], " ")` of `Score`. -/
def ngramAt (qt : List (List Char)) (i n : Nat) : List Char :=
  joinSpace ((qt.drop i).take n)

/-- The n-gram generation loop of `Score`: all n-grams of length
`1 .. min(len(queryTerms), maxNGram)`, outer loop over the length `n`,
inner loop over the start index `i`. -/
def allQueryTerms (qt : List (List Char)) (maxNGram : Nat) : List (List Char) :=
  (List.range' 1 (min qt.length maxNGram)).flatMap fun n =>
    (List.range (qt.length - n + 1)).map fun i => ngramAt qt i n

/-- The match test of the `Score` loop: the term must be present in the
document's frequency table and in the cached IDF map. -/
def termMatches (s : BM25Scorer) (doc : Document) (term : List Char) : Bool :=
  (lookupA term doc.WordFreq).isSome && (lookupA term s.idf).isSome

/-- The per-term score added by the `Score` loop for a matching term
(`0` for a term that is absent from either map). -/
noncomputable def termContribution (s : BM25Scorer) (doc : Document) (term : List Char) : ℝ :=
  match lookupA term doc.WordFreq, lookupA term s.idf with
  | some tf, some idf =>
    let docLen : ℝ := ((doc.WordFreq.length : ℕ) : ℝ)
    let numerator : ℝ := (tf : ℝ) * (s.k1 + 1)
    let denominator : ℝ := (tf : ℝ) + s.k1 * (1 - s.b + s.b * docLen / s.avgdl)
    let lengthBoost : ℝ := 1 + 0.5 * ((((fieldsCh term).length : ℕ) : ℝ) - 1)
    idf * numerator / denominator * lengthBoost
  | _, _ => 0

/-- `BM25Scorer.Score`: lowercase and whitespace-split the query, generate
the n-grams, accumulate the matching terms' scores, and return `0` when no
term matched at all. -/
noncomputable def score (s : BM25Scorer) (query : List Char) (doc : Document) : ℝ :=
  let terms := allQueryTerms (fieldsCh (toLowerCh query)) s.maxNGram
  let r := terms.foldl
    (fun (acc : ℝ × Bool) term =>
      if termMatches s doc term then (acc.1 + termContribution s doc term, true) else acc)
    ((0 : ℝ), false)
  if r.2 then r.1 else 0

/-! ### Basic facts about the scorer embedding -/

theorem lookupA_append {α β : Type _} [DecidableEq α] (k : α) (l₁ l₂ : List (α × β)) :
    lookupA k (l₁ ++ l₂) =
      if (lookupA k l₁).isSome then lookupA k l₁ else lookupA k l₂ := by
  induction l₁ with
  | nil => simp [lookupA]
  | cons p ps ih =>
    by_cases h : p.1 = k <;> simp [lookupA, h, ih]

theorem lookupA_some_mem {α β : Type _} [DecidableEq α] {k : α} {v : β}
    {l : List (α × β)} (h : lookupA k l = some v) : (k, v) ∈ l := by
  induction l with
  | nil => simp [lookupA] at h
  | cons p ps ih =>
    by_cases hk : p.1 = k
    · simp [lookupA, hk] at h
      subst hk
      subst h
      exact List.mem_cons_self _ _
    · simp [lookupA, hk] at h
      exact List.mem_cons_of_mem _ (ih h)

theorem termContribution_eq_zero {s : BM25Scorer} {doc : Document} {term : List Char}
    (h : termMatches s doc term = false) : termContribution s doc term = 0 := by
  unfold termMatches at h
  unfold termContribution
  rcases hd : lookupA term doc.WordFreq with _ | tf <;>
    rcases hi : lookupA term s.idf with _ | idf <;> simp [hd, hi] at h ⊢

theorem score_foldl_aux (s : BM25Scorer) (doc : Document) (terms : List (List Char))
    (a : ℝ) (b : Bool) :
    terms.foldl
      (fun (acc : ℝ × Bool) term =>
        if termMatches s doc term then (acc.1 + termContribution s doc term, true) else acc)
      (a, b) =
    (a + (terms.map (termContribution s doc)).sum,
      b || terms.any (termMatches s doc)) := by
  induction terms generalizing a b with
  | nil => simp
  | cons t ts ih =>
    by_cases h : termMatches s doc t
    · simp only [List.foldl_cons, h, if_pos, List.map_cons, List.sum_cons, List.any_cons]
      rw [ih]
      simp [h, add_assoc]
    · have h0 : termContribution s doc t = 0 :=
        termContribution_eq_zero (by simpa using h)
      simp only [List.foldl_cons, h, if_neg, List.map_cons, List.sum_cons, List.any_cons]
      rw [ih]
      simp [h, h0]

/-- `Score` equals the sum of the per-term contributions over all generated
query terms (the final no-match test returns `0`, which the empty sum also
yields). -/
theorem score_eq_sum (s : BM25Scorer) (query : List Char) (doc : Document) :
    score s query doc =
      ((allQueryTerms (fieldsCh (toLowerCh query)) s.maxNGram).map
        (termContribution s doc)).sum := by
  unfold score
  simp only [score_foldl_aux, Bool.false_or, zero_add]
  by_cases h : (allQueryTerms (fieldsCh (toLowerCh query)) s.maxNGram).any (termMatches s doc)
  · simp [h]
  · simp only [h, if_neg, Bool.false_eq_true, not_false_eq_true]
    have : ∀ t ∈ allQueryTerms (fieldsCh (toLowerCh query)) s.maxNGram,
        termContribution s doc t = 0 := by
      intro t ht
      refine termContribution_eq_zero ?_
      by_contra hb
      have : (allQueryTerms (fieldsCh (toLowerCh query)) s.maxNGram).any (termMatches s doc) :=
        List.any_eq_true.mpr ⟨t, ht, by simpa using hb⟩
      exact h this
    rw [List.sum_eq_zero]
    intro x hx
    rcases List.mem_map.mp hx with ⟨t, ht, rfl⟩
    exact this t ht

theorem score_eq_zero_of_no_match {s : BM25Scorer} {query : List Char} {doc : Document}
    (h : ∀ term ∈ allQueryTerms (fieldsCh (toLowerCh query)) s.maxNGram,
      ¬ termMatches s doc term = true) :
    score s query doc = 0 := by
  rw [score_eq_sum]
  rw [List.sum_eq_zero]
  intro x hx
  rcases List.mem_map.mp hx with ⟨t, ht, rfl⟩
  exact termContribution_eq_zero (by simpa using h t ht)

/-- Claim C3: if no generated query term is present in both the document's
frequency table and the cached IDF map, `Score` returns exactly `0`. -/
theorem claim_C3 (s : BM25Scorer) (query : List Char) (doc : Document)
    (h : ∀ term ∈ allQueryTerms (fieldsCh (toLowerCh query)) s.maxNGram,
      ¬ termMatches s doc term = true) :
    score s query doc = 0 :=
  score_eq_zero_of_no_match h

/-- Witness for C3 at a concrete input: an empty-table document matches no
query term, so the score is exactly `0`. -/
theorem claim_C3_witness :
    (∀ term ∈ allQueryTerms (fieldsCh (toLowerCh ['c', 'a', 't']))
        (newBM25Scorer 3).maxNGram,
      ¬ termMatches (newBM25Scorer 3) ⟨['d'], []⟩ term = true) ∧
    score (newBM25Scorer 3) ['c', 'a', 't'] ⟨['d'], []⟩ = 0 := by
  have h : ∀ term ∈ allQueryTerms (fieldsCh (toLowerCh ['c', 'a', 't']))
      (newBM25Scorer 3).maxNGram,
      ¬ termMatches (newBM25Scorer 3) ⟨['d'], []⟩ term = true := by
    intro term _
    simp [termMatches, lookupA]
  exact ⟨h, claim_C3 (newBM25Scorer 3) ['c', 'a', 't'] ⟨['d'], []⟩ h⟩

/-! ### Structural facts about reachable scorer states -/

theorem processDocument_k1 (s : BM25Scorer) (d : Document) :
    (processDocument s d).k1 = s.k1 := rfl

theorem processDocument_b (s : BM25Scorer) (d : Document) :
    (processDocument s d).b = s.b := rfl

theorem processDocument_maxNGram (s : BM25Scorer) (d : Document) :
    (processDocument s d).maxNGram = s.maxNGram := rfl

theorem processDocument_docs (s : BM25Scorer) (d : Document) :
    (processDocument s d).docs = s.docs ++ [d] := rfl

theorem foldl_processDocument_k1 :
    ∀ (ds : List Document) (s : BM25Scorer), (ds.foldl processDocument s).k1 = s.k1
  | [], _ => rfl
  | d :: ds, s => by
    rw [List.foldl_cons, foldl_processDocument_k1 ds, processDocument_k1]

theorem foldl_processDocument_b :
    ∀ (ds : List Document) (s : BM25Scorer), (ds.foldl processDocument s).b = s.b
  | [], _ => rfl
  | d :: ds, s => by
    rw [List.foldl_cons, foldl_processDocument_b ds, processDocument_b]

theorem foldl_processDocument_maxNGram :
    ∀ (ds : List Document) (s : BM25Scorer),
      (ds.foldl processDocument s).maxNGram = s.maxNGram
  | [], _ => rfl
  | d :: ds, s => by
    rw [List.foldl_cons, foldl_processDocument_maxNGram ds, processDocument_maxNGram]

theorem foldl_processDocument_docs :
    ∀ (ds : List Document) (s : BM25Scorer),
      (ds.foldl processDocument s).docs = s.docs ++ ds
  | [], s => by simp
  | d :: ds, s => by
    rw [List.foldl_cons, foldl_processDocument_docs ds, processDocument_docs]
    simp

theorem scorerOf_k1 (maxN : Nat) (ds : List Document) : (scorerOf maxN ds).k1 = 1.2 :=
  foldl_processDocument_k1 ds _

theorem scorerOf_b (maxN : Nat) (ds : List Document) : (scorerOf maxN ds).b = 0.75 :=
  foldl_processDocument_b ds _

theorem scorerOf_maxNGram (maxN : Nat) (ds : List Document) :
    (scorerOf maxN ds).maxNGram = maxN :=
  foldl_processDocument_maxNGram ds _

theorem scorerOf_docs (maxN : Nat) (ds : List Document) : (scorerOf maxN ds).docs = ds := by
  unfold scorerOf
  rw [foldl_processDocument_docs]
  rfl

theorem processDocument_avgdl (s : BM25Scorer) (d : Document) :
    (processDocument s d).avgdl =
      ((((s.docs ++ [d]).map fun x => x.WordFreq.length).sum : ℕ) : ℝ) /
        (((s.docs ++ [d]).length : ℕ) : ℝ) := rfl

theorem scorerOf_nil_avgdl (maxN : Nat) : (scorerOf maxN []).avgdl = 0 := rfl

theorem scorerOf_nil_idf (maxN : Nat) : (scorerOf maxN []).idf = [] := rfl

theorem scorerOf_concat (maxN : Nat) (ds : List Document) (d : Document) :
    scorerOf maxN (ds ++ [d]) = processDocument (scorerOf maxN ds) d := by
  unfold scorerOf
  rw [List.foldl_append]
  rfl

theorem scorerOf_avgdl_concat (maxN : Nat) (ds : List Document) (d : Document) :
    (scorerOf maxN (ds ++ [d])).avgdl =
      ((((ds ++ [d]).map fun x => x.WordFreq.length).sum : ℕ) : ℝ) /
        (((ds ++ [d]).length : ℕ) : ℝ) := by
  rw [scorerOf_concat, processDocument_avgdl, scorerOf_docs]

/-! ### `strings.Fields` and `strings.Join` facts -/

theorem fieldsChGo_append_nonws {w : List Char}
    (hw : ∀ c ∈ w, c.isWhitespace = false) :
    ∀ (cur l : List Char), fieldsChGo cur (w ++ l) = fieldsChGo (w.reverse ++ cur) l := by
  induction w with
  | nil => intro cur l; simp
  | cons c w ih =>
    intro cur l
    have hc : c.isWhitespace = false := hw c (List.mem_cons_self _ _)
    have hw' : ∀ x ∈ w, x.isWhitespace = false := fun x hx => hw x (List.mem_cons_of_mem _ hx)
    simp only [List.cons_append, fieldsChGo, hc, Bool.false_eq_true, if_neg,
      not_false_eq_true]
    rw [List.append_eq, ih hw' (c :: cur) l]
    simp

theorem joinSpace_cons_cons (w w' : List Char) (ws : List (List Char)) :
    joinSpace (w :: w' :: ws) = w ++ ' ' :: joinSpace (w' :: ws) := rfl

theorem fieldsCh_joinSpace :
    ∀ ws : List (List Char),
      (∀ w ∈ ws, w ≠ [] ∧ ∀ c ∈ w, c.isWhitespace = false) →
      fieldsCh (joinSpace ws) = ws
  | [], _ => rfl
  | [w], h => by
    have hw := h w (List.mem_cons_self _ _)
    show fieldsChGo [] (joinSpace [w]) = [w]
    have : joinSpace [w] = w ++ [] := by simp [joinSpace]
    rw [this, fieldsChGo_append_nonws hw.2]
    simp [fieldsChGo, hw.1]
  | w :: w' :: ws, h => by
    have hw := h w (List.mem_cons_self _ _)
    have hrest : ∀ x ∈ w' :: ws, x ≠ [] ∧ ∀ c ∈ x, c.isWhitespace = false :=
      fun x hx => h x (List.mem_cons_of_mem _ hx)
    show fieldsChGo [] (joinSpace (w :: w' :: ws)) = w :: w' :: ws
    rw [joinSpace_cons_cons, fieldsChGo_append_nonws hw.2]
    simp only [List.append_nil, fieldsChGo, Char.isWhitespace]
    have hrev : w.reverse.isEmpty = false := by
      cases hrev2 : w.reverse with
      | nil => exact absurd (by simpa using hrev2) hw.1
      | cons a l => rfl
    simp only [hrev, Bool.false_eq_true, if_neg, not_false_eq_true, if_true]
    rw [show fieldsChGo [] (joinSpace (w' :: ws)) = fieldsCh (joinSpace (w' :: ws)) from rfl,
      fieldsCh_joinSpace (w' :: ws) hrest]
    simp

theorem fieldsChGo_mem_props :
    ∀ (l cur : List Char), (∀ c ∈ cur, c.isWhitespace = false) →
      ∀ w ∈ fieldsChGo cur l, w ≠ [] ∧ ∀ c ∈ w, c.isWhitespace = false
  | [], cur, hcur => by
    intro w hw
    by_cases h : cur.isEmpty
    · simp [fieldsChGo, h] at hw
    · simp only [fieldsChGo, h, Bool.false_eq_true, if_neg, not_false_eq_true,
        List.mem_singleton] at hw
      · subst hw
        constructor
        · intro hrev
          have : cur = [] := by simpa using congrArg List.reverse hrev
          simp [this] at h
        · intro c hc
          exact hcur c (by simpa using hc)
  | a :: l, cur, hcur => by
    intro w hw
    by_cases ha : a.isWhitespace
    · by_cases hc : cur.isEmpty
      · simp only [fieldsChGo, ha, if_pos, hc] at hw
        exact fieldsChGo_mem_props l [] (by simp) w hw
      · simp only [fieldsChGo, ha, if_pos, hc, Bool.false_eq_true, if_neg,
          not_false_eq_true, List.mem_cons] at hw
        rcases hw with hw | hw
        · subst hw
          constructor
          · intro hrev
            have : cur = [] := by simpa using congrArg List.reverse hrev
            simp [this] at hc
          · intro c hcc
            exact hcur c (by simpa using hcc)
        · exact fieldsChGo_mem_props l [] (by simp) w hw
    · simp only [fieldsChGo, ha, Bool.false_eq_true, if_neg, not_false_eq_true] at hw
      refine fieldsChGo_mem_props l (a :: cur) ?_ w hw
      intro c hcc
      rcases List.mem_cons.mp hcc with rfl | hcc
      · simpa using ha
      · exact hcur c hcc

theorem fieldsCh_mem_props {s : List Char} :
    ∀ w ∈ fieldsCh s, w ≠ [] ∧ ∀ c ∈ w, c.isWhitespace = false :=
  fieldsChGo_mem_props s [] (by simp)

/-- The word count of a generated query n-gram is exactly its length `n`:
joining `n` whitespace-free nonempty words with single spaces and splitting
again recovers the `n` words. -/
theorem fieldsCh_ngramAt {qt : List (List Char)}
    (hqt : ∀ w ∈ qt, w ≠ [] ∧ ∀ c ∈ w, c.isWhitespace = false)
    {i n : Nat} (hin : i + n ≤ qt.length) :
    (fieldsCh (ngramAt qt i n)).length = n := by
  have hsub : ∀ w ∈ (qt.drop i).take n, w ≠ [] ∧ ∀ c ∈ w, c.isWhitespace = false := by
    intro w hw
    exact hqt w (List.mem_of_mem_drop (List.mem_of_mem_take hw))
  rw [ngramAt, fieldsCh_joinSpace _ hsub]
  rw [List.length_take, List.length_drop]
  omega

/-- Claim C1: `Score` lowercases and whitespace-splits the query, generates
every contiguous n-gram of length `1 .. min(query word count, maxNGram)`,
and returns the sum over the generated terms of
`idf * (tf*(k1+1)) / (tf + k1*(1-b+b*docLen/avgDocLen)) * (1+0.5*(termWordCount-1))`
with `k1 = 1.2`, `b = 0.75` and `docLen` the document's distinct-term count;
terms missing from either map contribute nothing. -/
theorem claim_C1 (maxN : Nat) (ds : List Document) (query : List Char) (doc : Document)
    (hnd : (doc.WordFreq.map Prod.fst).Nodup) :
    score (scorerOf maxN ds) query doc =
      ((List.range' 1 (min (fieldsCh (toLowerCh query)).length maxN)).map fun n =>
        ((List.range ((fieldsCh (toLowerCh query)).length - n + 1)).map fun i =>
          match lookupA (ngramAt (fieldsCh (toLowerCh query)) i n) doc.WordFreq,
            lookupA (ngramAt (fieldsCh (toLowerCh query)) i n) (scorerOf maxN ds).idf with
          | some tf, some idf =>
            idf * ((tf : ℝ) * (1.2 + 1)) /
              ((tf : ℝ) + 1.2 * (1 - 0.75 + 0.75 *
                (((doc.WordFreq.map Prod.fst).dedup.length : ℕ) : ℝ) /
                  (scorerOf maxN ds).avgdl)) *
              (1 + 0.5 * ((n : ℝ) - 1))
          | _, _ => 0).sum).sum := by
  have hdl : (doc.WordFreq.map Prod.fst).dedup.length = doc.WordFreq.length := by
    rw [List.Nodup.dedup hnd, List.length_map]
  rw [score_eq_sum]
  rw [allQueryTerms, scorerOf_maxNGram]
  rw [List.map_flatMap, List.flatMap_def, List.sum_flatten, List.map_map]
  refine congrArg List.sum (List.map_congr_left ?_)
  intro n hn
  simp only [Function.comp_apply, List.map_map]
  refine congrArg List.sum (List.map_congr_left ?_)
  intro i hi
  have hn' := List.mem_range'_1.mp hn
  have hi' := List.mem_range.mp hi
  have hin : i + n ≤ (fieldsCh (toLowerCh query)).length := by omega
  have hlen : (fieldsCh (toLowerCh query)).length ≥ n := by omega
  have hfl : (fieldsCh (ngramAt (fieldsCh (toLowerCh query)) i n)).length = n :=
    fieldsCh_ngramAt (fun w hw => fieldsCh_mem_props w hw) hin
  simp only [Function.comp_apply, termContribution, scorerOf_k1, scorerOf_b, hfl, hdl]

/-- Witness for C1 at a concrete input with a well-formed (distinct-key)
frequency table. -/
theorem claim_C1_witness :
    (((⟨['d'], [(['c', 'a', 't'], 2)]⟩ : Document).WordFreq.map Prod.fst).Nodup) ∧
    score (scorerOf 3 []) ['c', 'a', 't'] ⟨['d'], [(['c', 'a', 't'], 2)]⟩ =
      ((List.range' 1 (min (fieldsCh (toLowerCh ['c', 'a', 't'])).length 3)).map fun n =>
        ((List.range ((fieldsCh (toLowerCh ['c', 'a', 't'])).length - n + 1)).map fun i =>
          match lookupA (ngramAt (fieldsCh (toLowerCh ['c', 'a', 't'])) i n)
              (⟨['d'], [(['c', 'a', 't'], 2)]⟩ : Document).WordFreq,
            lookupA (ngramAt (fieldsCh (toLowerCh ['c', 'a', 't'])) i n)
              (scorerOf 3 []).idf with
          | some tf, some idf =>
            idf * ((tf : ℝ) * (1.2 + 1)) /
              ((tf : ℝ) + 1.2 * (1 - 0.75 + 0.75 *
                ((((⟨['d'], [(['c', 'a', 't'], 2)]⟩ : Document).WordFreq.map
                    Prod.fst).dedup.length : ℕ) : ℝ) /
                  (scorerOf 3 []).avgdl)) *
              (1 + 0.5 * ((n : ℝ) - 1))
          | _, _ => 0).sum).sum :=
  ⟨by decide, claim_C1 3 [] ['c', 'a', 't'] ⟨['d'], [(['c', 'a', 't'], 2)]⟩ (by decide)⟩

/-! ### The IDF cache: lookup characterization -/

theorem addIDFTerms_lookup (docs : List Document) (t : List Char) :
    ∀ (freq : List (List Char × Int)) (idf : List (List Char × ℝ)),
    lookupA t (addIDFTerms docs idf freq) =
      if (lookupA t idf).isSome then lookupA t idf
      else if (lookupA t freq).isSome
        then some (idfValue docs.length (docCount docs t)) else none
  | [], idf => by
    by_cases h : (lookupA t idf).isSome
    · simp [addIDFTerms, h]
    · simp only [addIDFTerms, List.foldl_nil, h, Bool.false_eq_true, if_neg,
        not_false_eq_true, lookupA, Option.isSome_none]
      simpa [Option.not_isSome_iff_eq_none] using h
  | p :: ps, idf => by
    have step : addIDFTerms docs idf (p :: ps) =
        addIDFTerms docs
          (if (lookupA p.1 idf).isSome then idf
            else idf ++ [(p.1, idfValue docs.length (docCount docs p.1))]) ps := by
      simp [addIDFTerms]
    rw [step]
    by_cases hA : (lookupA p.1 idf).isSome
    · rw [if_pos hA, addIDFTerms_lookup docs t ps idf]
      by_cases ht : (lookupA t idf).isSome
      · simp [ht]
      · by_cases hpt : p.1 = t
        · exact absurd (hpt ▸ hA) ht
        · simp [ht, lookupA, hpt]
    · rw [if_neg hA,
        addIDFTerms_lookup docs t ps (idf ++ [(p.1, idfValue docs.length (docCount docs p.1))])]
      by_cases ht : (lookupA t idf).isSome
      · have h2 : (lookupA t (idf ++ [(p.1, idfValue docs.length (docCount docs p.1))])).isSome := by
          rw [lookupA_append, if_pos ht]
          exact ht
        rw [if_pos h2, if_pos ht, lookupA_append, if_pos ht]
      · have hnone : lookupA t idf = none := Option.not_isSome_iff_eq_none.mp (by simpa using ht)
        by_cases hpt : p.1 = t
        · subst hpt
          have h2 : lookupA p.1 (idf ++ [(p.1, idfValue docs.length (docCount docs p.1))]) =
              some (idfValue docs.length (docCount docs p.1)) := by
            rw [lookupA_append, if_neg (by simpa using ht)]
            simp [lookupA]
          rw [h2]
          simp [ht, lookupA]
        · have h2 : lookupA t (idf ++ [(p.1, idfValue docs.length (docCount docs p.1))]) = none := by
            rw [lookupA_append, if_neg (by simpa using ht)]
            simp [lookupA, hpt, hnone]
          rw [h2]
          simp only [Option.isSome_none, Bool.false_eq_true, if_neg, not_false_eq_true, ht]
          simp [lookupA, hpt]

theorem calculateIDF_foldl_lookup (docs : List Document) (t : List Char) :
    ∀ (ds : List Document) (idf0 : List (List Char × ℝ)),
    lookupA t (ds.foldl (fun acc d => addIDFTerms docs acc d.WordFreq) idf0) =
      if (lookupA t idf0).isSome then lookupA t idf0
      else if ds.any (fun d => (lookupA t d.WordFreq).isSome)
        then some (idfValue docs.length (docCount docs t)) else none
  | [], idf0 => by
    by_cases h : (lookupA t idf0).isSome
    · simp [h]
    · simp only [List.foldl_nil, h, Bool.false_eq_true, if_neg, not_false_eq_true,
        List.any_nil]
      simpa [Option.not_isSome_iff_eq_none] using h
  | d :: ds, idf0 => by
    rw [List.foldl_cons, calculateIDF_foldl_lookup docs t ds (addIDFTerms docs idf0 d.WordFreq)]
    rw [addIDFTerms_lookup docs t d.WordFreq idf0]
    by_cases h0 : (lookupA t idf0).isSome
    · simp [h0]
    · by_cases hd : (lookupA t d.WordFreq).isSome
      · simp [h0, hd]
      · simp [h0, hd]

theorem calculateIDF_lookup (docs : List Document) (idf0 : List (List Char × ℝ))
    (t : List Char) :
    lookupA t (calculateIDF docs idf0) =
      if (lookupA t idf0).isSome then lookupA t idf0
      else if docs.any (fun d => (lookupA t d.WordFreq).isSome)
        then some (idfValue docs.length (docCount docs t)) else none :=
  calculateIDF_foldl_lookup docs t docs idf0

/-- Claim C2: `ProcessDocument` appends the document, recomputes the average
document length as the mean of per-document distinct-term counts, keeps every
already-cached IDF value unchanged, and computes the IDF of every not yet
cached term that occurs in some processed document by
`ln(1 + (N-df+0.5)/(df+0.5))` with `N` the number of documents processed so
far and `df` the number of processed documents containing the term. -/
theorem claim_C2 (maxN : Nat) (ds : List Document) (d : Document)
    (hnd : ∀ x ∈ ds ++ [d], (x.WordFreq.map Prod.fst).Nodup) :
    (processDocument (scorerOf maxN ds) d).docs = ds ++ [d]
    ∧ (processDocument (scorerOf maxN ds) d).avgdl =
        (((((ds ++ [d]).map fun x => (x.WordFreq.map Prod.fst).dedup.length).sum : ℕ) : ℝ)) /
          (((ds ++ [d]).length : ℕ) : ℝ)
    ∧ (∀ t v, lookupA t (scorerOf maxN ds).idf = some v →
        lookupA t (processDocument (scorerOf maxN ds) d).idf = some v)
    ∧ (∀ t, lookupA t (scorerOf maxN ds).idf = none →
        lookupA t (processDocument (scorerOf maxN ds) d).idf =
          if (ds ++ [d]).any (fun x => (lookupA t x.WordFreq).isSome)
          then some (idfValue (ds ++ [d]).length (docCount (ds ++ [d]) t)) else none) := by
  have hdocs : (processDocument (scorerOf maxN ds) d).docs = ds ++ [d] := by
    rw [processDocument_docs, scorerOf_docs]
  have hidf : (processDocument (scorerOf maxN ds) d).idf =
      calculateIDF (ds ++ [d]) (scorerOf maxN ds).idf := by
    show calculateIDF ((scorerOf maxN ds).docs ++ [d]) (scorerOf maxN ds).idf = _
    rw [scorerOf_docs]
  refine ⟨hdocs, ?_, ?_, ?_⟩
  · rw [processDocument_avgdl, scorerOf_docs]
    have : ((ds ++ [d]).map fun x => x.WordFreq.length) =
        ((ds ++ [d]).map fun x => (x.WordFreq.map Prod.fst).dedup.length) := by
      refine List.map_congr_left ?_
      intro x hx
      rw [List.Nodup.dedup (hnd x hx), List.length_map]
    rw [this]
  · intro t v hv
    rw [hidf, calculateIDF_lookup, if_pos (by simp [hv])]
    exact hv
  · intro t ht
    rw [hidf, calculateIDF_lookup, if_neg (by simp [ht])]

/-- A tiny concrete document used by witnesses. -/
def docW : Document := ⟨['a'], [(['c', 'a', 't'], 1)]⟩

/-- Witness for C2 at a concrete input: one processed document with a
distinct-key table. -/
theorem claim_C2_witness :
    (∀ x ∈ ([] : List Document) ++ [docW], (x.WordFreq.map Prod.fst).Nodup) ∧
    ((processDocument (scorerOf 3 []) docW).docs = ([] : List Document) ++ [docW]
    ∧ (processDocument (scorerOf 3 []) docW).avgdl =
        ((((([] : List Document) ++ [docW]).map
          (fun x => (x.WordFreq.map Prod.fst).dedup.length)).sum : ℕ) : ℝ) /
          (((([] : List Document) ++ [docW]).length : ℕ) : ℝ)
    ∧ (∀ t v, lookupA t (scorerOf 3 []).idf = some v →
        lookupA t (processDocument (scorerOf 3 []) docW).idf = some v)
    ∧ (∀ t, lookupA t (scorerOf 3 []).idf = none →
        lookupA t (processDocument (scorerOf 3 []) docW).idf =
          if (([] : List Document) ++ [docW]).any
              (fun x => (lookupA t x.WordFreq).isSome)
          then some (idfValue (([] : List Document) ++ [docW]).length
            (docCount (([] : List Document) ++ [docW]) t)) else none)) :=
  ⟨by decide, claim_C2 3 [] docW (by decide)⟩

/-! ### Positivity invariants of reachable scorer states -/

theorem docCount_le_length (docs : List Document) (t : List Char) :
    docCount docs t ≤ docs.length :=
  List.length_filter_le _ _

theorem docCount_pos {docs : List Document} {d : Document} {t : List Char}
    (hd : d ∈ docs) (h : (lookupA t d.WordFreq).isSome) : 1 ≤ docCount docs t := by
  have hmem : d ∈ docs.filter fun x => (lookupA t x.WordFreq).isSome :=
    List.mem_filter.mpr ⟨hd, by simpa using h⟩
  have hpos := List.length_pos.mpr (List.ne_nil_of_mem hmem)
  simpa [docCount] using hpos

theorem idfValue_pos {N df : Nat} (h1 : 1 ≤ df) (h2 : df ≤ N) : 0 < idfValue N df := by
  unfold idfValue
  refine Real.log_pos ?_
  have hN : (df : ℝ) ≤ (N : ℝ) := by exact_mod_cast h2
  have hnum : (0 : ℝ) < (N : ℝ) - (df : ℝ) + 0.5 := by linarith
  have hden : (0 : ℝ) < (df : ℝ) + 0.5 := by positivity
  have := div_pos hnum hden
  linarith

/-- Invariant: all cached IDF values are strictly positive. -/
def idfInv (s : BM25Scorer) : Prop :=
  ∀ t v, lookupA t s.idf = some v → 0 < v

/-- Invariant: the IDF cache's domain is exactly the set of terms occurring
in some processed document. -/
def idfDom (s : BM25Scorer) : Prop :=
  ∀ t, (lookupA t s.idf).isSome ↔ ∃ d ∈ s.docs, (lookupA t d.WordFreq).isSome

theorem processDocument_idf (s : BM25Scorer) (d : Document) :
    (processDocument s d).idf = calculateIDF (s.docs ++ [d]) s.idf := rfl

theorem idfInv_processDocument {s : BM25Scorer} {d : Document} (h : idfInv s) :
    idfInv (processDocument s d) := by
  intro t v hv
  rw [processDocument_idf, calculateIDF_lookup] at hv
  by_cases h0 : (lookupA t s.idf).isSome
  · rw [if_pos h0] at hv
    exact h t v hv
  · rw [if_neg h0] at hv
    by_cases h1 : (s.docs ++ [d]).any fun x => (lookupA t x.WordFreq).isSome
    · rw [if_pos h1] at hv
      rcases List.any_eq_true.mp h1 with ⟨x, hx, hxt⟩
      have hpos := idfValue_pos (docCount_pos hx (by simpa using hxt))
        (docCount_le_length (s.docs ++ [d]) t)
      have : idfValue (s.docs ++ [d]).length (docCount (s.docs ++ [d]) t) = v :=
        Option.some.inj hv
      rw [← this]
      exact hpos
    · rw [if_neg h1] at hv
      cases hv

theorem idfDom_processDocument {s : BM25Scorer} {d : Document} (h : idfDom s) :
    idfDom (processDocument s d) := by
  intro t
  rw [processDocument_idf, processDocument_docs, calculateIDF_lookup]
  by_cases h0 : (lookupA t s.idf).isSome
  · rw [if_pos h0]
    simp only [h0, true_iff]
    rcases (h t).mp h0 with ⟨x, hx, hxt⟩
    exact ⟨x, List.mem_append_left _ hx, hxt⟩
  · rw [if_neg h0]
    by_cases h1 : (s.docs ++ [d]).any fun x => (lookupA t x.WordFreq).isSome
    · rw [if_pos h1]
      simp only [Option.isSome_some, true_iff]
      rcases List.any_eq_true.mp h1 with ⟨x, hx, hxt⟩
      exact ⟨x, hx, by simpa using hxt⟩
    · rw [if_neg h1]
      simp only [Option.isSome_none, Bool.false_eq_true, false_iff]
      intro ⟨x, hx, hxt⟩
      exact h1 (List.any_eq_true.mpr ⟨x, hx, by simpa using hxt⟩)

theorem foldl_processDocument_idfInv :
    ∀ (ds : List Document) (s : BM25Scorer), idfInv s → idfInv (ds.foldl processDocument s)
  | [], _, h => h
  | d :: ds, s, h => by
    rw [List.foldl_cons]
    exact foldl_processDocument_idfInv ds _ (idfInv_processDocument h)

theorem foldl_processDocument_idfDom :
    ∀ (ds : List Document) (s : BM25Scorer), idfDom s → idfDom (ds.foldl processDocument s)
  | [], _, h => h
  | d :: ds, s, h => by
    rw [List.foldl_cons]
    exact foldl_processDocument_idfDom ds _ (idfDom_processDocument h)

theorem scorerOf_idfInv (maxN : Nat) (ds : List Document) : idfInv (scorerOf maxN ds) :=
  foldl_processDocument_idfInv ds _ (fun t v hv => by simp [newBM25Scorer, lookupA] at hv)

theorem scorerOf_idfDom (maxN : Nat) (ds : List Document) : idfDom (scorerOf maxN ds) :=
  foldl_processDocument_idfDom ds _ (fun t => by simp [newBM25Scorer, lookupA])

theorem scorerOf_avgdl_nonneg (maxN : Nat) (ds : List Document) :
    0 ≤ (scorerOf maxN ds).avgdl := by
  rcases List.eq_nil_or_concat ds with rfl | ⟨init, last, rfl⟩
  · rw [scorerOf_nil_avgdl]
  · rw [List.concat_eq_append, scorerOf_avgdl_concat]
    positivity

theorem scorerOf_avgdl_pos {maxN : Nat} {ds : List Document}
    (h : ∃ x ∈ ds, x.WordFreq ≠ []) : 0 < (scorerOf maxN ds).avgdl := by
  rcases List.eq_nil_or_concat ds with rfl | ⟨init, last, rfl⟩
  · rcases h with ⟨x, hx, _⟩
    simp at hx
  · rw [List.concat_eq_append] at h ⊢
    rw [scorerOf_avgdl_concat]
    rcases h with ⟨x, hx, hxne⟩
    apply div_pos
    · have hx1 : 1 ≤ x.WordFreq.length := List.length_pos.mpr hxne
      have hmem : x.WordFreq.length ∈ (init ++ [last]).map fun d => d.WordFreq.length :=
        List.mem_map_of_mem _ hx
      have hsum : 1 ≤ ((init ++ [last]).map fun d => d.WordFreq.length).sum :=
        le_trans hx1 (List.single_le_sum (fun y _ => Nat.zero_le y) _ hmem)
      have : (0 : ℕ) < ((init ++ [last]).map fun d => d.WordFreq.length).sum := hsum
      exact_mod_cast this
    · have : 0 < (init ++ [last]).length := by simp
      exact_mod_cast this

theorem avgdl_pos_of_match {maxN : Nat} {ds : List Document} {doc : Document}
    {term : List Char} (hm : termMatches (scorerOf maxN ds) doc term = true) :
    0 < (scorerOf maxN ds).avgdl := by
  have hidf : (lookupA term (scorerOf maxN ds).idf).isSome := by
    unfold termMatches at hm
    exact (Bool.and_eq_true_iff.mp hm).2
  rcases (scorerOf_idfDom maxN ds term).mp hidf with ⟨x, hx, hxt⟩
  rw [scorerOf_docs] at hx
  refine scorerOf_avgdl_pos ⟨x, hx, ?_⟩
  intro hnil
  rw [hnil] at hxt
  simp [lookupA] at hxt

theorem termContribution_eq_of {s : BM25Scorer} {doc : Document} {term : List Char}
    {tf : Int} {idf : ℝ}
    (htf : lookupA term doc.WordFreq = some tf) (hidf : lookupA term s.idf = some idf) :
    termContribution s doc term =
      idf * ((tf : ℝ) * (s.k1 + 1)) /
        ((tf : ℝ) + s.k1 * (1 - s.b + s.b * ((doc.WordFreq.length : ℕ) : ℝ) / s.avgdl)) *
        (1 + 0.5 * ((((fieldsCh term).length : ℕ) : ℝ) - 1)) := by
  unfold termContribution
  rw [htf, hidf]

theorem termContribution_pos {maxN : Nat} {ds : List Document} {doc : Document}
    {term : List Char}
    (hw : ∀ p ∈ doc.WordFreq, (1 : Int) ≤ p.2)
    (hm : termMatches (scorerOf maxN ds) doc term = true) :
    0 < termContribution (scorerOf maxN ds) doc term := by
  have hk1 := scorerOf_k1 maxN ds
  have hb := scorerOf_b maxN ds
  have havg := avgdl_pos_of_match hm
  unfold termMatches at hm
  obtain ⟨h1, h2⟩ := Bool.and_eq_true_iff.mp hm
  rcases Option.isSome_iff_exists.mp h1 with ⟨tf, htf⟩
  rcases Option.isSome_iff_exists.mp h2 with ⟨idf, hidf⟩
  have hidfpos : 0 < idf := scorerOf_idfInv maxN ds term idf hidf
  have htf1 : (1 : Int) ≤ tf := by
    have := hw _ (lookupA_some_mem htf)
    simpa using this
  have htfR : (1 : ℝ) ≤ (tf : ℝ) := by exact_mod_cast htf1
  rw [termContribution_eq_of htf hidf, hk1, hb]
  have hdoclen : (0 : ℝ) ≤ ((doc.WordFreq.length : ℕ) : ℝ) := by positivity
  have hq : 0 ≤ ((doc.WordFreq.length : ℕ) : ℝ) / (scorerOf maxN ds).avgdl :=
    div_nonneg hdoclen (le_of_lt havg)
  have hden : 0 < (tf : ℝ) + 1.2 * (1 - 0.75 + 0.75 *
      ((doc.WordFreq.length : ℕ) : ℝ) / (scorerOf maxN ds).avgdl) := by
    rw [mul_div_assoc]
    nlinarith
  have hnum : 0 < (tf : ℝ) * (1.2 + 1) := by nlinarith
  have hboost : 0 < 1 + 0.5 * ((((fieldsCh term).length : ℕ) : ℝ) - 1) := by
    have h0 : (0 : ℝ) ≤ (((fieldsCh term).length : ℕ) : ℝ) := by positivity
    nlinarith
  exact mul_pos (div_pos (mul_pos hidfpos hnum) hden) hboost

theorem termContribution_nonneg {maxN : Nat} {ds : List Document} {doc : Document}
    {term : List Char} (hw : ∀ p ∈ doc.WordFreq, (1 : Int) ≤ p.2) :
    0 ≤ termContribution (scorerOf maxN ds) doc term := by
  by_cases hm : termMatches (scorerOf maxN ds) doc term = true
  · exact le_of_lt (termContribution_pos hw hm)
  · rw [termContribution_eq_zero (by simpa using hm)]

/-- Claim C10: in every reachable scorer state all cached IDF values are
strictly positive, and `Score` is strictly positive as soon as one generated
query term is present in both the document's table and the IDF cache. -/
theorem claim_C10 (maxN : Nat) (ds : List Document) (doc : Document)
    (hw : ∀ p ∈ doc.WordFreq, (1 : Int) ≤ p.2) :
    idfInv (scorerOf maxN ds)
    ∧ ∀ query : List Char,
      (∃ term ∈ allQueryTerms (fieldsCh (toLowerCh query)) (scorerOf maxN ds).maxNGram,
        termMatches (scorerOf maxN ds) doc term = true) →
      0 < score (scorerOf maxN ds) query doc := by
  refine ⟨scorerOf_idfInv maxN ds, ?_⟩
  rintro query ⟨term, hterm, hm⟩
  rw [score_eq_sum]
  have hmem : termContribution (scorerOf maxN ds) doc term ∈
      (allQueryTerms (fieldsCh (toLowerCh query)) (scorerOf maxN ds).maxNGram).map
        (termContribution (scorerOf maxN ds) doc) :=
    List.mem_map_of_mem _ hterm
  rcases List.append_of_mem hmem with ⟨l1, l2, heq⟩
  have hsub : ∀ x ∈ l1 ++ termContribution (scorerOf maxN ds) doc term :: l2, 0 ≤ x := by
    intro x hx
    rw [← heq] at hx
    rcases List.mem_map.mp hx with ⟨t, _, rfl⟩
    exact termContribution_nonneg hw
  rw [heq, List.sum_append, List.sum_cons]
  have h1 : 0 ≤ l1.sum :=
    List.sum_nonneg fun x hx => hsub x (List.mem_append_left _ hx)
  have h2 : 0 ≤ l2.sum :=
    List.sum_nonneg fun x hx =>
      hsub x (List.mem_append_right _ (List.mem_cons_of_mem _ hx))
  have h3 : 0 < termContribution (scorerOf maxN ds) doc term :=
    termContribution_pos hw hm
  linarith

/-- Witness for C10: a one-document corpus; the query `cat` matches, and the
score is strictly positive. -/
theorem claim_C10_witness :
    (∀ p ∈ docW.WordFreq, (1 : Int) ≤ p.2) ∧
    (idfInv (scorerOf 3 [docW])
    ∧ ∀ query : List Char,
      (∃ term ∈ allQueryTerms (fieldsCh (toLowerCh query)) (scorerOf 3 [docW]).maxNGram,
        termMatches (scorerOf 3 [docW]) docW term = true) →
      0 < score (scorerOf 3 [docW]) query docW) ∧
    0 < score (scorerOf 3 [docW]) ['c', 'a', 't'] docW := by
  have hw : ∀ p ∈ docW.WordFreq, (1 : Int) ≤ p.2 := by decide
  have hmain := claim_C10 3 [docW] docW hw
  refine ⟨hw, hmain, ?_⟩
  refine hmain.2 ['c', 'a', 't'] ⟨['c', 'a', 't'], ?_, ?_⟩
  · decide
  · have hidf : (scorerOf 3 [docW]).idf =
        [(['c', 'a', 't'], idfValue 1 (docCount [docW] ['c', 'a', 't']))] := by
      show (processDocument (newBM25Scorer 3) docW).idf = _
      rw [processDocument_idf]
      simp [newBM25Scorer, calculateIDF, addIDFTerms, docW, lookupA]
    unfold termMatches
    rw [hidf]
    simp [lookupA, docW]

/-- Claim C7: for every reachable corpus state and well-formed document,
`Score` is non-negative; a degenerate corpus with zero average document
length yields score exactly `0`; and whenever some query term matches, the
average document length is strictly positive (so the formula never divides
by zero). -/
theorem claim_C7 (maxN : Nat) (ds : List Document) (query : List Char) (doc : Document)
    (hw : ∀ p ∈ doc.WordFreq, (1 : Int) ≤ p.2) :
    0 ≤ score (scorerOf maxN ds) query doc
    ∧ ((scorerOf maxN ds).avgdl = 0 → score (scorerOf maxN ds) query doc = 0)
    ∧ ((∃ term ∈ allQueryTerms (fieldsCh (toLowerCh query)) (scorerOf maxN ds).maxNGram,
        termMatches (scorerOf maxN ds) doc term = true) →
      0 < (scorerOf maxN ds).avgdl) := by
  refine ⟨?_, ?_, ?_⟩
  · rw [score_eq_sum]
    refine List.sum_nonneg ?_
    intro x hx
    rcases List.mem_map.mp hx with ⟨t, _, rfl⟩
    exact termContribution_nonneg hw
  · intro h0
    refine score_eq_zero_of_no_match ?_
    intro term hterm hm
    have := avgdl_pos_of_match hm
    rw [h0] at this
    exact lt_irrefl 0 this
  · rintro ⟨term, _, hm⟩
    exact avgdl_pos_of_match hm

/-- Witness for C7: a corpus consisting of one entirely empty document has
average document length `0`, and the score is then exactly `0`. -/
theorem claim_C7_witness :
    (∀ p ∈ docW.WordFreq, (1 : Int) ≤ p.2) ∧
    0 ≤ score (scorerOf 3 [⟨['e'], []⟩]) ['c', 'a', 't'] docW ∧
    (scorerOf 3 [⟨['e'], []⟩]).avgdl = 0 ∧
    score (scorerOf 3 [⟨['e'], []⟩]) ['c', 'a', 't'] docW = 0 := by
  have hw : ∀ p ∈ docW.WordFreq, (1 : Int) ≤ p.2 := by decide
  have hmain := claim_C7 3 [⟨['e'], []⟩] ['c', 'a', 't'] docW hw
  have havg : (scorerOf 3 [⟨['e'], []⟩]).avgdl = 0 := by
    show (processDocument (newBM25Scorer 3) ⟨['e'], []⟩).avgdl = 0
    rw [processDocument_avgdl]
    norm_num [newBM25Scorer]
  exact ⟨hw, hmain.1, havg, hmain.2.1 havg⟩

/-! ## The markdown tokenizer (src/pkg/cache/cache.go, package markdown) -/

/-- The stop-word set `functionWords` of the source, verbatim. -/
def functionWords : List (List Char) :=
  (["a", "an", "the",
    "and", "but", "or", "nor", "for", "yet", "so", "because", "if", "unless",
    "while", "where", "when", "whether",
    "i", "you", "he", "she", "it", "we", "they", "me", "him", "her",
    "us", "them", "my", "your", "his", "its", "our", "their", "mine", "yours",
    "hers", "ours", "theirs", "this", "that", "these", "those", "who", "whom",
    "whose", "which", "what",
    "am", "is", "are", "was", "were", "be", "been", "being", "have", "has",
    "had", "having", "do", "does", "did", "doing", "will", "would", "shall",
    "should", "may", "might", "must", "can", "could",
    "there", "here", "now", "then", "today", "tomorrow", "yesterday", "not",
    "no", "yes", "okay", "oh", "well", "just", "very", "much", "many", "more",
    "most", "some", "any", "all", "both", "each", "few", "several", "too",
    "rather", "quite"]).map String.data

/-- The punctuation cutset of the `strings.Trim` call in
`processTextNodeWithPosition`: period, comma, bang, question mark, both
parentheses, both square brackets, both curly braces, double quote, single
quote (written as character codes). -/
def punctCutset : List Char :=
  [46, 44, 33, 63, 40, 41, 91, 93, 123, 125, 34, 39].map Char.ofNat

/-- `strings.Trim(word, cutset)`: strip leading and trailing cutset chars. -/
def trimPunct (w : List Char) : List Char :=
  ((w.dropWhile (punctCutset.contains ·)).reverse.dropWhile (punctCutset.contains ·)).reverse

/-- Normalization of one raw word: trim punctuation, then lowercase. -/
def normalizeWord (w : List Char) : List Char := toLowerCh (trimPunct w)

/-- The skip tests of `processTextNodeWithPosition`: purely numeric words
(vacuously true on an empty normalization), stop words, and words whose
trimmed length is at most 2. -/
def isSkippedWord (w : List Char) : Bool :=
  w.all (·.isDigit) || functionWords.contains w || decide (w.length ≤ 2)

/-- `bytes.Index`: position of the first occurrence of `needle` in `hay`
(`none` for Go's `-1`). -/
def indexOf? (needle : List Char) : List Char → Option Nat
  | [] => if needle.isPrefixOf [] then some 0 else none
  | c :: t => if needle.isPrefixOf (c :: t) then some 0 else (indexOf? needle t).map (· + 1)

/-- The significant-word collection loop of `processTextNodeWithPosition`:
skipped words do not advance the search cursor `pos`; a found word is
recorded with its normalized text and found position, and the cursor moves
past it.  (For the first word the source searches the whole text, which
coincides with searching from the initial cursor `0`; a word not found from
the cursor is dropped, as in the source.) -/
def collectSigGo (text : List Char) : List (List Char) → Nat → List (List Char × Nat)
  | [], _ => []
  | w :: ws, pos =>
    if isSkippedWord (normalizeWord w) then collectSigGo text ws pos
    else
      match indexOf? w (text.drop pos) with
      | none => collectSigGo text ws pos
      | some j => (normalizeWord w, pos + j) :: collectSigGo text ws (pos + j + w.length)

/-- Significant words of one text run, with positions. -/
def collectSig (text : List Char) : List (List Char × Nat) :=
  collectSigGo text (fieldsCh text) 0

/-- `markdown.WordOccurrence` (context strings omitted; no claim concerns
them). -/
structure WordOccurrence where
  Word : List Char
  Position : Nat
deriving DecidableEq

/-- Parser configuration after `NewParser` has applied its default. -/
structure ParserT where
  minNGram : Nat
  maxNGram : Nat
deriving DecidableEq

/-- `markdown.NewParser`: a MinNGram below 1 defaults to 1. -/
def mkParser (minN maxN : Nat) : ParserT :=
  ⟨if minN < 1 then 1 else minN, maxN⟩

/-- The unigram emission loop (`minNGram == 1`): one occurrence per
significant word of length at least `minWordLen`. -/
def unigramOccs (sig : List (List Char × Nat)) (base minWordLen : Nat) :
    List WordOccurrence :=
  (sig.filter fun sw => decide (minWordLen ≤ sw.1.length)).map fun sw =>
    ⟨sw.1, base + sw.2⟩

/-- The n-gram emission loops (`minNGram > 1`): outer loop over the length
`n` from `minNGram` to `min maxNGram (significant word count)`, inner loop
over the start index `i`; the occurrence position is the position of the
window's first word. -/
def ngramOccs (p : ParserT) (sig : List (List Char × Nat)) (base : Nat) :
    List WordOccurrence :=
  (List.range' p.minNGram (min p.maxNGram sig.length + 1 - p.minNGram)).flatMap fun n =>
    (List.range (sig.length - n + 1)).map fun i =>
      ⟨joinSpace (((sig.drop i).take n).map Prod.fst), base + (sig.getD i ⟨[], 0⟩).2⟩

/-- `Parser.processTextNodeWithPosition` on one text segment starting at
offset `segStart`. -/
def processTextNode (p : ParserT) (text : List Char) (segStart frontOfs minWordLen : Nat) :
    List WordOccurrence :=
  let sig := collectSig text
  if sig.isEmpty then []
  else if p.minNGram = 1 then unigramOccs sig (frontOfs + segStart) minWordLen
  else if p.minNGram ≤ sig.length then ngramOccs p sig (frontOfs + segStart)
  else []

/-- A text node of the parsed document: the model of a goldmark `ast.Text`
segment together with its start offset in the content. -/
structure TextRun where
  start : Nat
  text : List Char
deriving DecidableEq

/-- The position comparator of the final `sort.Slice`. -/
def occLE (a b : WordOccurrence) : Bool := decide (a.Position ≤ b.Position)

/-- `Parser.FindWordOccurrences`: emit occurrences per text run in document
order, then sort by position.  The source sorts with `sort.Slice` on
`Position`; `sort.Slice` is documented as NOT stable, so all Go guarantees
is a by-position sorted permutation.  This executable model fixes one
admissible implementation (a merge sort); every statement proved about it
below is invariant under the choice of sort (membership and counts), while
the sort contract itself is modelled by `sortsByPosition` and
`findWordOccurrencesWith` next to claim C4. -/
def findWordOccurrences (p : ParserT) (runs : List TextRun) (frontOfs minWordLen : Nat) :
    List WordOccurrence :=
  (runs.flatMap fun r => processTextNode p r.text r.start frontOfs minWordLen).mergeSort occLE

/-- `Parser.ParseContent` as a frequency function: how often `w` occurs
among the occurrences found with `minWordLen = 1`. -/
def parseContent (p : ParserT) (runs : List TextRun) (frontOfs : Nat) (w : List Char) : Nat :=
  ((findWordOccurrences p runs frontOfs 1).filter fun o => o.Word == w).length

/-! ### Positions of significant words -/

theorem isPrefixOf_length_le : ∀ {n h : List Char}, n.isPrefixOf h = true → n.length ≤ h.length
  | [], _, _ => Nat.zero_le _
  | a :: as, [], h => by simp [List.isPrefixOf] at h
  | a :: as, b :: bs, h => by
    simp only [List.isPrefixOf, Bool.and_eq_true] at h
    have := isPrefixOf_length_le h.2
    simp only [List.length_cons]
    omega

theorem indexOf?_bound {w : List Char} :
    ∀ {h : List Char} {j : Nat}, indexOf? w h = some j → j + w.length ≤ h.length := by
  intro h
  induction h with
  | nil =>
    intro j hj
    unfold indexOf? at hj
    by_cases hp : w.isPrefixOf [] = true
    · rw [if_pos hp] at hj
      cases hj
      simpa using isPrefixOf_length_le hp
    · rw [if_neg hp] at hj
      cases hj
  | cons c t ih =>
    intro j hj
    unfold indexOf? at hj
    by_cases hp : w.isPrefixOf (c :: t) = true
    · rw [if_pos hp] at hj
      cases hj
      simpa using isPrefixOf_length_le hp
    · rw [if_neg hp] at hj
      rcases Option.map_eq_some'.mp hj with ⟨j', hj', rfl⟩
      have := ih hj'
      simp only [List.length_cons]
      omega

theorem normalizeWord_nil : normalizeWord [] = [] := rfl

theorem not_skipped_ne_nil {w : List Char}
    (h : isSkippedWord (normalizeWord w) = false) : w ≠ [] := by
  intro hnil
  rw [hnil, normalizeWord_nil] at h
  simp [isSkippedWord] at h

theorem not_skipped_length {w : List Char}
    (h : isSkippedWord w = false) : 2 < w.length := by
  unfold isSkippedWord at h
  simp only [Bool.or_eq_false_iff, decide_eq_false_iff_not, Nat.not_le] at h
  exact h.2

/-- Specification of the significant-word scan: all recorded positions lie
in `[pos, text.length)`, all recorded words have length above 2, and the
positions are strictly increasing. -/
theorem collectSigGo_spec (text : List Char) :
    ∀ (ws : List (List Char)) (pos : Nat),
      (∀ x ∈ collectSigGo text ws pos,
        pos ≤ x.2 ∧ x.2 < text.length ∧ 2 < x.1.length)
      ∧ (collectSigGo text ws pos).Pairwise fun a b => a.2 < b.2
  | [], pos => by simp [collectSigGo]
  | w :: ws, pos => by
    by_cases hskip : isSkippedWord (normalizeWord w) = true
    · simpa [collectSigGo, hskip] using collectSigGo_spec text ws pos
    · have hskip' : isSkippedWord (normalizeWord w) = false := by
        simpa using hskip
      rcases hidx : indexOf? w (text.drop pos) with _ | j
      · simpa [collectSigGo, hskip, hidx] using collectSigGo_spec text ws pos
      · have hwne : w ≠ [] := not_skipped_ne_nil hskip'
        have hwlen : 1 ≤ w.length := List.length_pos.mpr hwne
        have hbound : j + w.length ≤ text.length - pos := by
          have := indexOf?_bound hidx
          simpa [List.length_drop] using this
        have hposlt : pos + j < text.length := by omega
        have ihs := collectSigGo_spec text ws (pos + j + w.length)
        constructor
        · intro x hx
          simp only [collectSigGo, hskip, Bool.false_eq_true, if_neg,
            not_false_eq_true, hidx, List.mem_cons] at hx
          rcases hx with rfl | hx
          · exact ⟨Nat.le_add_right _ _, hposlt, not_skipped_length hskip'⟩
          · have := ihs.1 x hx
            exact ⟨by omega, this.2.1, this.2.2⟩
        · simp only [collectSigGo, hskip, Bool.false_eq_true, if_neg,
            not_false_eq_true, hidx]
          refine List.Pairwise.cons ?_ ihs.2
          intro x hx
          have := (ihs.1 x hx).1
          simp only
          omega

theorem collectSig_mem {text : List Char} {x : List Char × Nat}
    (hx : x ∈ collectSig text) : x.2 < text.length ∧ 2 < x.1.length :=
  ((collectSigGo_spec text (fieldsCh text) 0).1 x hx).2

theorem collectSig_pairwise (text : List Char) :
    (collectSig text).Pairwise fun a b => a.2 < b.2 :=
  (collectSigGo_spec text (fieldsCh text) 0).2

theorem collectSig_getElem_lt {text : List Char} {i j : Nat}
    (hi : i < (collectSig text).length) (hj : j < (collectSig text).length)
    (hij : i < j) : (collectSig text)[i].2 < (collectSig text)[j].2 :=
  List.pairwise_iff_getElem.mp (collectSig_pairwise text) i j hi hj hij

theorem collectSig_getElem_inj {text : List Char} {i j : Nat}
    (hi : i < (collectSig text).length) (hj : j < (collectSig text).length)
    (heq : (collectSig text)[i].2 = (collectSig text)[j].2) : i = j := by
  rcases Nat.lt_trichotomy i j with h | h | h
  · exact absurd heq (Nat.ne_of_lt (collectSig_getElem_lt hi hj h))
  · exact h
  · exact absurd heq.symm (Nat.ne_of_lt (collectSig_getElem_lt hj hi h))

theorem joinSpace_cons_length (w : List Char) (ws : List (List Char)) :
    w.length ≤ (joinSpace (w :: ws)).length := by
  cases ws with
  | nil => simp [joinSpace]
  | cons w' ws => simp [joinSpace_cons_cons]

theorem joinSpace_take_length_le :
    ∀ (ws : List (List Char)) (m : Nat),
      (joinSpace (ws.take m)).length ≤ (joinSpace ws).length
  | [], m => by simp
  | w :: ws, 0 => by simp [joinSpace]
  | w :: ws, m + 1 => by
    cases ws with
    | nil => simp [List.take_nil, joinSpace]
    | cons w' ws' =>
      rw [List.take_succ_cons]
      cases htk : (w' :: ws').take m with
      | nil =>
        simp only [joinSpace, joinSpace_cons_cons, List.length_append]
        omega
      | cons y ys =>
        rw [← htk, joinSpace_cons_cons]
        have h1 : joinSpace (w :: (w' :: ws').take m) =
            w ++ ' ' :: joinSpace ((w' :: ws').take m) := by
          rw [htk]
          exact joinSpace_cons_cons w y ys
        rw [h1]
        have := joinSpace_take_length_le (w' :: ws') m
        simp only [List.length_append, List.length_cons]
        omega

/-! ### Occurrence bounds and the per-run generation order -/

theorem getD_eq_getElem_of_lt {l : List (List Char × Nat)} {i : Nat} (h : i < l.length) :
    l.getD i ⟨[], 0⟩ = l[i] := by
  rw [List.getD_eq_getElem?_getD, List.getElem?_eq_getElem h]
  rfl

theorem ngramOccs_mem {p : ParserT} {sig : List (List Char × Nat)} {base : Nat}
    {o : WordOccurrence} (ho : o ∈ ngramOccs p sig base) :
    ∃ n i, p.minNGram ≤ n ∧ n ≤ p.maxNGram ∧ i + n ≤ sig.length ∧
      o = ⟨joinSpace (((sig.drop i).take n).map Prod.fst),
        base + (sig.getD i ⟨[], 0⟩).2⟩ := by
  unfold ngramOccs at ho
  rcases List.mem_flatMap.mp ho with ⟨n, hn, ho⟩
  rcases List.mem_map.mp ho with ⟨i, hi, rfl⟩
  have hn' := List.mem_range'_1.mp hn
  have hi' := List.mem_range.mp hi
  exact ⟨n, i, hn'.1, by omega, by omega, rfl⟩

theorem ngramOccs_mem_intro {p : ParserT} {sig : List (List Char × Nat)} {base : Nat}
    {n i : Nat} (h1 : p.minNGram ≤ n) (h2 : n ≤ p.maxNGram) (h3 : i + n ≤ sig.length) :
    (⟨joinSpace (((sig.drop i).take n).map Prod.fst),
      base + (sig.getD i ⟨[], 0⟩).2⟩ : WordOccurrence) ∈ ngramOccs p sig base := by
  unfold ngramOccs
  refine List.mem_flatMap.mpr ⟨n, List.mem_range'_1.mpr ⟨h1, by omega⟩, ?_⟩
  exact List.mem_map.mpr ⟨i, List.mem_range.mpr (by omega), rfl⟩

theorem ngram_word_length {sig : List (List Char × Nat)} {i n : Nat}
    (hi : i < sig.length) (hn : 1 ≤ n)
    (hmem : ∀ x ∈ sig, 2 < x.1.length) :
    2 < (joinSpace (((sig.drop i).take n).map Prod.fst)).length := by
  have hdrop : sig.drop i = sig[i] :: sig.drop (i + 1) := List.drop_eq_getElem_cons hi
  obtain ⟨m, rfl⟩ : ∃ m, n = m + 1 := ⟨n - 1, by omega⟩
  rw [hdrop, List.take_succ_cons, List.map_cons]
  have h1 := joinSpace_cons_length (sig[i].1) (((sig.drop (i + 1)).take m).map Prod.fst)
  have h2 : 2 < (sig[i].1).length := hmem _ (List.getElem_mem hi)
  omega

theorem processTextNode_mem_bounds {p : ParserT} {text : List Char}
    {segStart frontOfs minWordLen : Nat} {o : WordOccurrence}
    (hp : 1 ≤ p.minNGram)
    (ho : o ∈ processTextNode p text segStart frontOfs minWordLen) :
    frontOfs + segStart ≤ o.Position
    ∧ o.Position < frontOfs + segStart + text.length
    ∧ 2 < o.Word.length := by
  unfold processTextNode at ho
  by_cases hempty : (collectSig text).isEmpty
  · simp [hempty] at ho
  · rw [if_neg (by simpa using hempty)] at ho
    by_cases hmin : p.minNGram = 1
    · rw [if_pos hmin] at ho
      unfold unigramOccs at ho
      rcases List.mem_map.mp ho with ⟨sw, hsw, rfl⟩
      have hsw' : sw ∈ collectSig text := List.mem_of_mem_filter hsw
      have hb := collectSig_mem hsw'
      refine ⟨Nat.le_add_right _ _, ?_, hb.2⟩
      show frontOfs + segStart + sw.2 < frontOfs + segStart + text.length
      omega
    · rw [if_neg hmin] at ho
      by_cases hlen : p.minNGram ≤ (collectSig text).length
      · rw [if_pos hlen] at ho
        rcases ngramOccs_mem ho with ⟨n, i, hn1, _, hin, rfl⟩
        have hn : 1 ≤ n := le_trans hp hn1
        have hi : i < (collectSig text).length := by omega
        refine ⟨Nat.le_add_right _ _, ?_, ngram_word_length hi hn fun x hx => (collectSig_mem hx).2⟩
        show frontOfs + segStart + ((collectSig text).getD i ⟨[], 0⟩).2 <
          frontOfs + segStart + text.length
        rw [getD_eq_getElem_of_lt hi]
        have := (collectSig_mem (List.getElem_mem hi)).1
        omega
      · rw [if_neg hlen] at ho
        simp at ho

/-- The tie-breaking relation of claim C4: at equal positions the shorter
n-gram comes first. -/
def tieR (a b : WordOccurrence) : Prop :=
  a.Position = b.Position → a.Word.length ≤ b.Word.length

theorem pairwise_tieR_of_lt {l : List WordOccurrence}
    (h : l.Pairwise fun a b => a.Position < b.Position) : l.Pairwise tieR :=
  h.imp fun hab heq => absurd heq (Nat.ne_of_lt hab)

theorem unigramOccs_pairwise {sig : List (List Char × Nat)} {base minWordLen : Nat}
    (hsig : sig.Pairwise fun a b => a.2 < b.2) :
    (unigramOccs sig base minWordLen).Pairwise fun a b => a.Position < b.Position := by
  unfold unigramOccs
  rw [List.pairwise_map]
  refine (List.Pairwise.sublist (List.filter_sublist sig) hsig).imp ?_
  intro a b hab
  simpa using Nat.add_lt_add_left hab base

theorem ngramOccs_pairwise {p : ParserT} {text : List Char} {base : Nat}
    (hp : 1 ≤ p.minNGram) :
    (ngramOccs p (collectSig text) base).Pairwise tieR := by
  unfold ngramOccs
  rw [List.pairwise_flatMap]
  constructor
  · intro n hn
    have hn' := List.mem_range'_1.mp hn
    refine pairwise_tieR_of_lt ?_
    rw [List.pairwise_map]
    refine (List.pairwise_lt_range _).imp_of_mem ?_
    intro i j hi hj hij
    have hi' := List.mem_range.mp hi
    have hj' := List.mem_range.mp hj
    have hjlt : j < (collectSig text).length := by omega
    have hilt : i < (collectSig text).length := by omega
    show base + ((collectSig text).getD i ⟨[], 0⟩).2 <
      base + ((collectSig text).getD j ⟨[], 0⟩).2
    rw [getD_eq_getElem_of_lt hilt, getD_eq_getElem_of_lt hjlt]
    exact Nat.add_lt_add_left (collectSig_getElem_lt hilt hjlt hij) base
  · refine (List.pairwise_lt_range' _ _).imp_of_mem ?_
    intro n1 n2 hn1 hn2 h12 x hx y hy heq
    rcases List.mem_map.mp hx with ⟨i1, hi1, rfl⟩
    rcases List.mem_map.mp hy with ⟨i2, hi2, rfl⟩
    have hi1' := List.mem_range.mp hi1
    have hi2' := List.mem_range.mp hi2
    have hn1' := List.mem_range'_1.mp hn1
    have hn2' := List.mem_range'_1.mp hn2
    have hi1lt : i1 < (collectSig text).length := by omega
    have hi2lt : i2 < (collectSig text).length := by omega
    replace heq : base + ((collectSig text).getD i1 ⟨[], 0⟩).2 =
        base + ((collectSig text).getD i2 ⟨[], 0⟩).2 := heq
    rw [getD_eq_getElem_of_lt hi1lt, getD_eq_getElem_of_lt hi2lt] at heq
    have hieq : i1 = i2 := collectSig_getElem_inj hi1lt hi2lt (by omega)
    subst hieq
    show (joinSpace ((((collectSig text).drop i1).take n1).map Prod.fst)).length ≤
      (joinSpace ((((collectSig text).drop i1).take n2).map Prod.fst)).length
    have htk : ((collectSig text).drop i1).take n1 =
        (((collectSig text).drop i1).take n2).take n1 := by
      rw [List.take_take, min_eq_left (le_of_lt h12)]
    rw [htk, List.map_take]
    exact joinSpace_take_length_le ((((collectSig text).drop i1).take n2).map Prod.fst) n1

theorem processTextNode_pairwise {p : ParserT} {text : List Char}
    {segStart frontOfs minWordLen : Nat} (hp : 1 ≤ p.minNGram) :
    (processTextNode p text segStart frontOfs minWordLen).Pairwise tieR := by
  unfold processTextNode
  by_cases hempty : (collectSig text).isEmpty
  · simp [hempty]
  · rw [if_neg (by simpa using hempty)]
    by_cases hmin : p.minNGram = 1
    · rw [if_pos hmin]
      exact pairwise_tieR_of_lt (unigramOccs_pairwise (collectSig_pairwise text))
    · rw [if_neg hmin]
      by_cases hlen : p.minNGram ≤ (collectSig text).length
      · rw [if_pos hlen]
        exact ngramOccs_pairwise hp
      · rw [if_neg hlen]
        exact List.Pairwise.nil

/-- Separated text runs: each run ends at or before the next one starts
(true of the disjoint goldmark text segments the parser walks in document
order). -/
def runsSeparated (runs : List TextRun) : Prop :=
  runs.Pairwise fun r1 r2 => r1.start + r1.text.length ≤ r2.start

theorem gen_pairwise_tieR {p : ParserT} {runs : List TextRun}
    {frontOfs minWordLen : Nat} (hp : 1 ≤ p.minNGram) (hsep : runsSeparated runs) :
    (runs.flatMap fun r =>
      processTextNode p r.text r.start frontOfs minWordLen).Pairwise tieR := by
  rw [List.pairwise_flatMap]
  refine ⟨fun r _ => processTextNode_pairwise hp, ?_⟩
  refine hsep.imp ?_
  intro r1 r2 hsep12 x hx y hy heq
  have hx' := processTextNode_mem_bounds hp hx
  have hy' := processTextNode_mem_bounds hp hy
  omega

theorem occLE_trans : ∀ (a b c : WordOccurrence),
    occLE a b → occLE b c → occLE a c := by
  intro a b c h1 h2
  simp only [occLE, decide_eq_true_eq] at h1 h2 ⊢
  omega

theorem occLE_total : ∀ (a b : WordOccurrence), occLE a b || occLE b a := by
  intro a b
  simp only [occLE, Bool.or_eq_true, decide_eq_true_eq]
  omega

/-- `FindWordOccurrences` with the library sort abstracted: the generation
pass is the source's, the final `sort.Slice` call is any function meeting
its contract. -/
def findWordOccurrencesWith (sorter : List WordOccurrence → List WordOccurrence)
    (p : ParserT) (runs : List TextRun) (frontOfs minWordLen : Nat) :
    List WordOccurrence :=
  sorter (runs.flatMap fun r => processTextNode p r.text r.start frontOfs minWordLen)

/-- The contract Go documents for the `sort.Slice` call with the position
comparator: the result is a by-position sorted permutation of the input.
`sort.Slice` is explicitly not guaranteed to be stable, so nothing beyond
this may be assumed about the order of equal-position occurrences. -/
def sortsByPosition (sorter : List WordOccurrence → List WordOccurrence) : Prop :=
  ∀ l : List WordOccurrence,
    (sorter l).Perm l ∧ (sorter l).Pairwise fun a b => a.Position ≤ b.Position

theorem sortsByPosition_mergeSort {le : WordOccurrence → WordOccurrence → Bool}
    (htrans : ∀ a b c, le a b → le b c → le a c)
    (htotal : ∀ a b, le a b || le b a)
    (himp : ∀ a b, le a b = true → a.Position ≤ b.Position) :
    sortsByPosition fun l => l.mergeSort le := by
  intro l
  refine ⟨List.mergeSort_perm l le, ?_⟩
  exact (List.sorted_mergeSort htrans htotal l).imp fun hab => himp _ _ hab

theorem occLE_imp : ∀ a b, occLE a b = true → a.Position ≤ b.Position := by
  intro a b h
  simpa [occLE] using h

theorem mergeSort_occLE_sortsByPosition : sortsByPosition fun l => l.mergeSort occLE :=
  sortsByPosition_mergeSort occLE_trans occLE_total occLE_imp

/-- A comparator also meeting the `sort.Slice` contract, but putting the
LONGER n-gram first at equal positions — one admissible behaviour of an
unstable sort. -/
def occLEtieRev (a b : WordOccurrence) : Bool :=
  decide (a.Position < b.Position
    ∨ (a.Position = b.Position ∧ b.Word.length ≤ a.Word.length))

theorem occLEtieRev_trans : ∀ a b c,
    occLEtieRev a b → occLEtieRev b c → occLEtieRev a c := by
  intro a b c h1 h2
  simp only [occLEtieRev, decide_eq_true_eq] at h1 h2 ⊢
  omega

theorem occLEtieRev_total : ∀ a b, occLEtieRev a b || occLEtieRev b a := by
  intro a b
  simp only [occLEtieRev, Bool.or_eq_true, decide_eq_true_eq]
  omega

theorem occLEtieRev_imp : ∀ a b, occLEtieRev a b = true → a.Position ≤ b.Position := by
  intro a b h
  simp only [occLEtieRev, decide_eq_true_eq] at h
  omega

/-- A sorting function that satisfies everything Go promises for the
`sort.Slice` call, yet reverses the generation order inside every tie. -/
def tieRevSort (l : List WordOccurrence) : List WordOccurrence :=
  l.mergeSort occLEtieRev

theorem tieRevSort_sortsByPosition : sortsByPosition tieRevSort :=
  sortsByPosition_mergeSort occLEtieRev_trans occLEtieRev_total occLEtieRev_imp

/-- Claim C4 (amended): every sort meeting the `sort.Slice` contract
returns the occurrences in non-decreasing byte-position order, as a
permutation of the per-run generation sequence; in that generation sequence
occurrences sharing a start position do carry the shorter n-gram first, but
`sort.Slice` is unstable, so this tie order is not guaranteed to survive
into the output (see the counterexample).  The merge sort used by the
executable model is one admissible implementation of the contract. -/
theorem claim_C4_amended (p : ParserT) (runs : List TextRun)
    (frontOfs minWordLen : Nat) (hp : 1 ≤ p.minNGram) (hsep : runsSeparated runs) :
    (∀ sorter, sortsByPosition sorter →
      (findWordOccurrencesWith sorter p runs frontOfs minWordLen).Pairwise
        (fun a b => a.Position ≤ b.Position)
      ∧ (findWordOccurrencesWith sorter p runs frontOfs minWordLen).Perm
          (runs.flatMap fun r => processTextNode p r.text r.start frontOfs minWordLen))
    ∧ (runs.flatMap fun r =>
        processTextNode p r.text r.start frontOfs minWordLen).Pairwise tieR
    ∧ sortsByPosition (fun l => l.mergeSort occLE)
    ∧ findWordOccurrences p runs frontOfs minWordLen =
        findWordOccurrencesWith (fun l => l.mergeSort occLE) p runs frontOfs minWordLen :=
  ⟨fun _ hs => ⟨(hs _).2, (hs _).1⟩, gen_pairwise_tieR hp hsep,
    mergeSort_occLE_sortsByPosition, rfl⟩

unseal List.merge List.mergeSort in
/-- Counterexample to C4 as stated: `tieRevSort` satisfies the full
`sort.Slice` contract, yet on the repository's own test content it returns
the 3-gram before the 2-gram at positions 10 and 15, so the claimed
shorter-before-longer tie order is not a property the program guarantees. -/
theorem claim_C4_counterexample :
    sortsByPosition tieRevSort
    ∧ 1 ≤ (mkParser 2 3).minNGram
    ∧ runsSeparated [⟨0, ("This is a test document about testing").data⟩]
    ∧ findWordOccurrencesWith tieRevSort (mkParser 2 3)
        [⟨0, ("This is a test document about testing").data⟩] 0 3 =
      [⟨("test document about").data, 10⟩, ⟨("test document").data, 10⟩,
        ⟨("document about testing").data, 15⟩, ⟨("document about").data, 15⟩,
        ⟨("about testing").data, 24⟩]
    ∧ ¬ (findWordOccurrencesWith tieRevSort (mkParser 2 3)
        [⟨0, ("This is a test document about testing").data⟩] 0 3).Pairwise
        (fun a b => a.Position ≤ b.Position ∧
          (a.Position = b.Position → a.Word.length ≤ b.Word.length)) :=
  ⟨tieRevSort_sortsByPosition, by decide, by simp [runsSeparated], by decide, by decide⟩

/-- Witness for the amended C4: the repository's own multi-length test
content as a single separated run, under the executable model's sort. -/
theorem claim_C4_amended_witness :
    (1 ≤ (mkParser 2 3).minNGram
      ∧ runsSeparated [⟨0, ("This is a test document about testing").data⟩]
      ∧ sortsByPosition (fun l => l.mergeSort occLE))
    ∧ (findWordOccurrencesWith (fun l => l.mergeSort occLE) (mkParser 2 3)
        [⟨0, ("This is a test document about testing").data⟩] 0 3).Pairwise
        (fun a b => a.Position ≤ b.Position)
    ∧ (([(⟨0, ("This is a test document about testing").data⟩ : TextRun)]).flatMap
        fun r => processTextNode (mkParser 2 3) r.text r.start 0 3).Pairwise tieR := by
  have h1 : 1 ≤ (mkParser 2 3).minNGram := by decide
  have h2 : runsSeparated [⟨0, ("This is a test document about testing").data⟩] := by
    simp [runsSeparated]
  have hmain := claim_C4_amended (mkParser 2 3)
    [⟨0, ("This is a test document about testing").data⟩] 0 3 h1 h2
  exact ⟨⟨h1, h2, hmain.2.2.1⟩, (hmain.1 _ hmain.2.2.1).1, hmain.2.1⟩

/-! ### Membership characterization of the emitted occurrences -/

theorem collectSig_isEmpty_iff {text : List Char} :
    (collectSig text).isEmpty = true ↔ collectSig text = [] := by
  cases collectSig text <;> simp

theorem processTextNode_mem_iff_unigram {p : ParserT} {text : List Char}
    {segStart frontOfs minWordLen : Nat} (hmin : p.minNGram = 1)
    (o : WordOccurrence) :
    o ∈ processTextNode p text segStart frontOfs minWordLen ↔
      ∃ sw ∈ collectSig text, minWordLen ≤ sw.1.length
        ∧ o = ⟨sw.1, frontOfs + segStart + sw.2⟩ := by
  unfold processTextNode
  by_cases hempty : (collectSig text).isEmpty
  · rw [if_pos hempty]
    rw [collectSig_isEmpty_iff.mp hempty]
    simp
  · rw [if_neg (by simpa using hempty), if_pos hmin]
    unfold unigramOccs
    constructor
    · intro ho
      rcases List.mem_map.mp ho with ⟨sw, hsw, rfl⟩
      have h1 := List.mem_filter.mp hsw
      exact ⟨sw, h1.1, by simpa using h1.2, rfl⟩
    · rintro ⟨sw, hsw, hlen, rfl⟩
      exact List.mem_map.mpr ⟨sw, List.mem_filter.mpr ⟨hsw, by simpa using hlen⟩, rfl⟩

theorem processTextNode_mem_iff_ngram {p : ParserT} {text : List Char}
    {segStart frontOfs minWordLen : Nat} (hmin : 1 < p.minNGram)
    (o : WordOccurrence) :
    o ∈ processTextNode p text segStart frontOfs minWordLen ↔
      ∃ n i, p.minNGram ≤ n ∧ n ≤ p.maxNGram ∧ i + n ≤ (collectSig text).length
        ∧ o = ⟨joinSpace ((((collectSig text).drop i).take n).map Prod.fst),
            frontOfs + segStart + ((collectSig text).getD i ⟨[], 0⟩).2⟩ := by
  unfold processTextNode
  by_cases hempty : (collectSig text).isEmpty
  · rw [if_pos hempty]
    rw [collectSig_isEmpty_iff.mp hempty]
    simp only [List.not_mem_nil, false_iff]
    rintro ⟨n, i, hn1, _, hin, _⟩
    simp only [List.length_nil] at hin
    omega
  · rw [if_neg (by simpa using hempty), if_neg (by omega)]
    by_cases hlen : p.minNGram ≤ (collectSig text).length
    · rw [if_pos hlen]
      constructor
      · intro ho
        rcases ngramOccs_mem ho with ⟨n, i, h1, h2, h3, rfl⟩
        exact ⟨n, i, h1, h2, h3, rfl⟩
      · rintro ⟨n, i, h1, h2, h3, rfl⟩
        exact ngramOccs_mem_intro h1 h2 h3
    · rw [if_neg hlen]
      simp only [List.not_mem_nil, false_iff]
      rintro ⟨n, i, hn1, _, hin, _⟩
      omega

/-- Claim C5 (amended): each text run is tokenized independently, never
crossing run boundaries.  When `minNGram = 1` the parser emits only
unigrams — one occurrence per significant word passing the `minWordLen`
floor — regardless of `maxNGram`; when `minNGram > 1` it emits exactly the
contiguous n-grams of significant words of every length in
`[minNGram, min maxNGram (run word count)]`, so a run contributes only when
it has at least `minNGram` significant words. -/
theorem claim_C5_amended (p : ParserT) (runs : List TextRun)
    (frontOfs minWordLen : Nat) :
    (p.minNGram = 1 →
      ∀ o : WordOccurrence, o ∈ findWordOccurrences p runs frontOfs minWordLen ↔
        ∃ r ∈ runs, ∃ sw ∈ collectSig r.text,
          minWordLen ≤ sw.1.length ∧ o = ⟨sw.1, frontOfs + r.start + sw.2⟩)
    ∧ (1 < p.minNGram →
      ∀ o : WordOccurrence, o ∈ findWordOccurrences p runs frontOfs minWordLen ↔
        ∃ r ∈ runs, ∃ n i, p.minNGram ≤ n ∧ n ≤ p.maxNGram
          ∧ i + n ≤ (collectSig r.text).length
          ∧ o = ⟨joinSpace ((((collectSig r.text).drop i).take n).map Prod.fst),
              frontOfs + r.start + ((collectSig r.text).getD i ⟨[], 0⟩).2⟩) := by
  constructor
  · intro hmin o
    unfold findWordOccurrences
    rw [List.mem_mergeSort, List.mem_flatMap]
    constructor
    · rintro ⟨r, hr, ho⟩
      rcases (processTextNode_mem_iff_unigram hmin o).mp ho with ⟨sw, hsw, hl, rfl⟩
      exact ⟨r, hr, sw, hsw, hl, rfl⟩
    · rintro ⟨r, hr, sw, hsw, hl, rfl⟩
      exact ⟨r, hr, (processTextNode_mem_iff_unigram hmin _).mpr ⟨sw, hsw, hl, rfl⟩⟩
  · intro hmin o
    unfold findWordOccurrences
    rw [List.mem_mergeSort, List.mem_flatMap]
    constructor
    · rintro ⟨r, hr, ho⟩
      rcases (processTextNode_mem_iff_ngram hmin o).mp ho with ⟨n, i, h1, h2, h3, rfl⟩
      exact ⟨r, hr, n, i, h1, h2, h3, rfl⟩
    · rintro ⟨r, hr, n, i, h1, h2, h3, rfl⟩
      exact ⟨r, hr, (processTextNode_mem_iff_ngram hmin _).mpr ⟨n, i, h1, h2, h3, rfl⟩⟩

unseal List.merge List.mergeSort in
/-- Counterexample to C5 as stated: with `minNGram = 1` and `maxNGram = 2`,
the run `alpha beta` has two significant words, so the claimed generation of
every length in `[1, 2]` requires the bigram `alpha beta`; the parser emits
only the two unigrams. -/
theorem claim_C5_counterexample :
    findWordOccurrences (mkParser 1 2) [⟨0, ("alpha beta").data⟩] 0 3 =
      [⟨("alpha").data, 0⟩, ⟨("beta").data, 6⟩]
    ∧ (findWordOccurrences (mkParser 1 2) [⟨0, ("alpha beta").data⟩] 0 3).all
        (fun o => decide (o.Word ≠ ("alpha beta").data)) = true := by
  decide

/-- Witness for the amended C5: with `minNGram = 2` the parser does emit the
bigram occurrence at the run's start. -/
theorem claim_C5_amended_witness :
    1 < (mkParser 2 3).minNGram ∧
    (⟨("apple banana").data, 0⟩ : WordOccurrence) ∈
      findWordOccurrences (mkParser 2 3) [⟨0, ("apple banana cherry").data⟩] 0 3 := by
  have h : 1 < (mkParser 2 3).minNGram := by decide
  refine ⟨h, ?_⟩
  refine ((claim_C5_amended (mkParser 2 3) [⟨0, ("apple banana cherry").data⟩] 0 3).2 h
    ⟨("apple banana").data, 0⟩).mpr ?_
  exact ⟨⟨0, ("apple banana cherry").data⟩, by decide, 2, 0, by decide, by decide,
    by decide, by decide⟩

unseal List.merge List.mergeSort in
/-- Claim C8 (amended): the hard-coded trimmed-length floor of 2 sits in the
shared scanning path, so a word of trimmed length at most 2 is excluded from
`ParseContent`'s table just as from `FindWordOccurrences` — every table term
has length at least 3.  The real asymmetry is only that `FindWordOccurrences`
additionally applies its `minWordLen` parameter while `ParseContent` uses the
floor 1: with `minWordLen = 4` the term `cat` is in the table yet reported by
no occurrence. -/
theorem claim_C8_amended :
    (∀ (p : ParserT) (runs : List TextRun) (frontOfs : Nat) (w : List Char),
      1 ≤ p.minNGram → parseContent p runs frontOfs w ≠ 0 → 2 < w.length)
    ∧ parseContent (mkParser 1 1) [⟨0, ("cat").data⟩] 0 ("cat").data = 1
    ∧ findWordOccurrences (mkParser 1 1) [⟨0, ("cat").data⟩] 0 4 = [] := by
  refine ⟨?_, by decide, by decide⟩
  intro p runs frontOfs w hp hne
  unfold parseContent at hne
  have hlen : 0 < ((findWordOccurrences p runs frontOfs 1).filter
      fun o => o.Word == w).length := Nat.pos_of_ne_zero hne
  rcases List.exists_mem_of_length_pos hlen with ⟨o, ho⟩
  have h1 := List.mem_filter.mp ho
  have hw : o.Word = w := by simpa using h1.2
  have h2 : o ∈ (runs.flatMap fun r =>
      processTextNode p r.text r.start frontOfs 1) := by
    have := h1.1
    unfold findWordOccurrences at this
    exact List.mem_mergeSort.mp this
  rcases List.mem_flatMap.mp h2 with ⟨r, _, ho'⟩
  have := (processTextNode_mem_bounds hp ho').2.2
  rw [hw] at this
  exact this

unseal List.merge List.mergeSort in
/-- Counterexample to C8 as stated: in `cat ab dog` the word `ab` has
trimmed length 2; the claim says such words are kept in `ParseContent`'s
frequency mapping, but its count there is `0` (while `cat` is counted). -/
theorem claim_C8_counterexample :
    parseContent (mkParser 1 1) [⟨0, ("cat ab dog").data⟩] 0 ("ab").data = 0
    ∧ parseContent (mkParser 1 1) [⟨0, ("cat ab dog").data⟩] 0 ("cat").data = 1 := by
  decide

unseal List.merge List.mergeSort in
/-- Witness for the amended C8's universal part at a concrete input. -/
theorem claim_C8_amended_witness :
    (1 ≤ (mkParser 1 1).minNGram
      ∧ parseContent (mkParser 1 1) [⟨0, ("cat").data⟩] 0 ("cat").data ≠ 0)
    ∧ 2 < (("cat").data).length := by
  have h1 : 1 ≤ (mkParser 1 1).minNGram := by decide
  have h2 : parseContent (mkParser 1 1) [⟨0, ("cat").data⟩] 0 ("cat").data ≠ 0 := by
    decide
  exact ⟨⟨h1, h2⟩, claim_C8_amended.1 (mkParser 1 1) [⟨0, ("cat").data⟩] 0 ("cat").data h1 h2⟩

/-! ## Link insertion (Parser.InsertLink) -/

/-- The link construct `[word](target)` built by `InsertLink` (bracket and
parenthesis characters written as codes: 91 93 40 41). -/
def linkOf (word target : List Char) : List Char :=
  Char.ofNat 91 :: word ++ Char.ofNat 93 :: Char.ofNat 40 :: target ++ [Char.ofNat 41]

/-- `Parser.InsertLink`: reject an out-of-range position, a span running
past the end, or a span whose bytes differ from `word`; otherwise splice
the link construct over the span. -/
def insertLink (content word target : List Char) (position : Int) :
    Option (List Char) :=
  if position < 0 ∨ (content.length : Int) ≤ position then none
  else if (content.length : Int) < position + word.length then none
  else if (content.drop position.toNat).take word.length ≠ word then none
  else some (content.take position.toNat ++ linkOf word target
    ++ content.drop (position.toNat + word.length))

theorem linkOf_length (word target : List Char) :
    (linkOf word target).length = word.length + target.length + 4 := by
  simp [linkOf]
  omega

/-- Claim C6: `InsertLink` fails exactly when the position is out of bounds,
the span would exceed the content, or the bytes at the span differ from the
word; on success it returns the content with exactly that span replaced by
the link construct, preserving every byte before and after the span. -/
theorem claim_C6 (content word target : List Char) (position : Int) :
    (insertLink content word target position = none ↔
      (position < 0 ∨ (content.length : Int) ≤ position
        ∨ (content.length : Int) < position + word.length
        ∨ (content.drop position.toNat).take word.length ≠ word))
    ∧ (∀ res, insertLink content word target position = some res →
        res = content.take position.toNat ++ linkOf word target
          ++ content.drop (position.toNat + word.length)
        ∧ res.take position.toNat = content.take position.toNat
        ∧ res.drop (position.toNat + word.length + target.length + 4) =
            content.drop (position.toNat + word.length)) := by
  constructor
  · unfold insertLink
    split_ifs with h1 h2 h3
    · simp only [true_iff]
      tauto
    · simp only [true_iff]
      tauto
    · simp only [true_iff]
      tauto
    · simp only [reduceCtorEq, false_iff]
      push_neg at h1 ⊢
      exact ⟨h1.1, h1.2, by omega, by simpa using h3⟩
  · intro res hres
    unfold insertLink at hres
    split_ifs at hres with h1 h2 h3
    have hres' : res = content.take position.toNat ++ linkOf word target
        ++ content.drop (position.toNat + word.length) := (Option.some.inj hres).symm
    push_neg at h1
    have hplen : (content.take position.toNat).length = position.toNat := by
      rw [List.length_take]
      omega
    refine ⟨hres', ?_, ?_⟩
    · rw [hres', List.append_assoc, List.take_left' hplen]
    · rw [hres', List.drop_left']
      rw [List.length_append, hplen, linkOf_length]
      omega

/-- Witness for C6: the repository's own test case, plus the preserved
prefix. -/
theorem claim_C6_witness :
    insertLink ("This is a test document").data ("test").data ("target.md").data 10 =
      some (("This is a [test](target.md) document").data)
    ∧ (("This is a [test](target.md) document").data).take 10 =
        (("This is a test document").data).take 10 := by
  have h : insertLink ("This is a test document").data ("test").data
      ("target.md").data 10 = some (("This is a [test](target.md) document").data) := by
    decide
  refine ⟨h, ?_⟩
  have h2 := (claim_C6 ("This is a test document").data ("test").data
    ("target.md").data 10).2 (("This is a [test](target.md) document").data) h
  exact h2.2.1

/-! ## The analysis orchestrator (src/pkg/analyzer/analyzer.go) -/

/-- `scorer.LinkSuggestion` (context string omitted). -/
structure LinkSuggestion where
  SourcePath : List Char
  TargetPath : List Char
  Score : ℝ
  WordToLink : List Char
  Position : Nat

/-- The occurrence-grouping step: append the occurrence to its word's
group, creating the group on first sight. -/
def addOcc (m : List (List Char × List WordOccurrence)) (o : WordOccurrence) :
    List (List Char × List WordOccurrence) :=
  match lookupA o.Word m with
  | some _ => m.map fun pr => if pr.1 = o.Word then (pr.1, pr.2 ++ [o]) else pr
  | none => m ++ [(o.Word, [o])]

/-- The `wordOccurrences` grouping map, in first-seen key order. -/
def groupOccs (os : List WordOccurrence) : List (List Char × List WordOccurrence) :=
  os.foldl addOcc []

/-- One step of the best-word loop: a candidate must be a key of the
occurrence groups and of the target's frequency table and must strictly
beat the running maximum frequency (initially 0); the winner's first
occurrence is kept. -/
def pickBestStep (groups : List (List Char × List WordOccurrence))
    (tfreq : List (List Char × Int)) (acc : Option WordOccurrence × Int)
    (w : List Char) : Option WordOccurrence × Int :=
  match lookupA w groups with
  | none => acc
  | some occs =>
    match lookupA w tfreq with
    | none => acc
    | some freq => if acc.2 < freq then (occs.head?, freq) else acc

/-- The best-word loop of `analyzeSingleDocument`.  Go ranges over the
`wordOccurrences` map in unspecified order, so the visit order is an
explicit parameter. -/
def pickBest (groups : List (List Char × List WordOccurrence))
    (termOrder : List (List Char)) (tfreq : List (List Char × Int)) :
    Option WordOccurrence :=
  (termOrder.foldl (pickBestStep groups tfreq) (none, 0)).1

/-- The per-position conflict resolution: keep the new suggestion only if
the position is unused or the new score strictly beats the stored one. -/
noncomputable def updateSuggestion (m : List (Nat × LinkSuggestion)) (pos : Nat)
    (sg : LinkSuggestion) : List (Nat × LinkSuggestion) :=
  match lookupA pos m with
  | none => m ++ [(pos, sg)]
  | some existing =>
    if existing.Score < sg.Score then
      m.map fun pr => if pr.1 = pos then (pos, sg) else pr
    else m

/-- One target-document step of `analyzeSingleDocument`: skip the source
itself, score the whole source text against the target, and on reaching the
threshold let the best word's first occurrence compete at its position. -/
noncomputable def analyzeStep (src : Document) (query : List Char)
    (groups : List (List Char × List WordOccurrence)) (termOrder : List (List Char))
    (minScore : ℝ) (s : BM25Scorer) (m : List (Nat × LinkSuggestion))
    (target : Document) : List (Nat × LinkSuggestion) :=
  if target.Path = src.Path then m
  else if minScore ≤ score s query target then
    match pickBest groups termOrder target.WordFreq with
    | none => m
    | some bo =>
      updateSuggestion m bo.Position
        ⟨src.Path, target.Path, score s query target, bo.Word, bo.Position⟩
  else m

/-- `Analyzer.analyzeSingleDocument`: group the source's occurrences
(`minWordLen = 3`) by word, then visit every target document.  Go ranges
over its maps in unspecified order, so both the target order (the list
order of `targets`) and the term order are parameters; the result is the
position-keyed suggestion map. -/
noncomputable def analyzeSingleDocument (p : ParserT) (src : Document)
    (content : List Char) (runs : List TextRun) (targets : List Document)
    (termOrder : List (List Char)) (minScore : ℝ) (s : BM25Scorer) :
    List (Nat × LinkSuggestion) :=
  targets.foldl
    (analyzeStep src content (groupOccs (findWordOccurrences p runs 0 3))
      termOrder minScore s) []

theorem score_empty_idf {s : BM25Scorer} (h : s.idf = []) (query : List Char)
    (doc : Document) : score s query doc = 0 :=
  score_eq_zero_of_no_match fun term _ => by simp [termMatches, h, lookupA]

/-- Evaluation of one analysis pass over two equal-scoring targets that pick
the same position: the first-listed target wins. -/
theorem analyze_two_targets {p : ParserT} {src : Document} {content : List Char}
    {runs : List TextRun} {t1 t2 : Document} {order : List (List Char)}
    {bo1 bo2 : WordOccurrence}
    (hp1 : ¬ t1.Path = src.Path) (hp2 : ¬ t2.Path = src.Path)
    (hs : ∀ d : Document, score (newBM25Scorer 3) content d = 0)
    (hpick1 : pickBest (groupOccs (findWordOccurrences p runs 0 3)) order
      t1.WordFreq = some bo1)
    (hpick2 : pickBest (groupOccs (findWordOccurrences p runs 0 3)) order
      t2.WordFreq = some bo2)
    (hbo : bo2.Position = bo1.Position) :
    analyzeSingleDocument p src content runs [t1, t2] order 0 (newBM25Scorer 3) =
      [(bo1.Position, ⟨src.Path, t1.Path, 0, bo1.Word, bo1.Position⟩)] := by
  unfold analyzeSingleDocument
  rw [List.foldl_cons, List.foldl_cons, List.foldl_nil]
  have e1 : analyzeStep src content (groupOccs (findWordOccurrences p runs 0 3))
      order 0 (newBM25Scorer 3) [] t1 =
      [(bo1.Position, ⟨src.Path, t1.Path, 0, bo1.Word, bo1.Position⟩)] := by
    unfold analyzeStep
    rw [if_neg hp1, hs t1, if_pos le_rfl, hpick1]
    unfold updateSuggestion
    simp [lookupA]
  rw [e1]
  unfold analyzeStep
  rw [if_neg hp2, hs t2, if_pos le_rfl, hpick2]
  have hl : lookupA bo2.Position
      [(bo1.Position, (⟨src.Path, t1.Path, 0, bo1.Word, bo1.Position⟩ : LinkSuggestion))] =
      some ⟨src.Path, t1.Path, 0, bo1.Word, bo1.Position⟩ := by
    simp [lookupA, hbo]
  simp [updateSuggestion, hl]

unseal List.merge List.mergeSort in
/-- Counterexample to C9 as stated: two targets with identical tables score
identically and pick the same position; the first-seen target wins, so the
two Go-map iteration orders produce different suggestion sets. -/
theorem claim_C9_counterexample :
    ((analyzeSingleDocument (mkParser 1 1) ⟨("src").data, []⟩ ("alpha").data
        [⟨0, ("alpha").data⟩]
        [⟨("t1").data, [(("alpha").data, 5)]⟩, ⟨("t2").data, [(("alpha").data, 5)]⟩]
        [("alpha").data] 0 (newBM25Scorer 3)).map fun pr => pr.2.TargetPath) =
      [("t1").data]
    ∧ ((analyzeSingleDocument (mkParser 1 1) ⟨("src").data, []⟩ ("alpha").data
        [⟨0, ("alpha").data⟩]
        [⟨("t2").data, [(("alpha").data, 5)]⟩, ⟨("t1").data, [(("alpha").data, 5)]⟩]
        [("alpha").data] 0 (newBM25Scorer 3)).map fun pr => pr.2.TargetPath) =
      [("t2").data] := by
  have hs : ∀ d : Document, score (newBM25Scorer 3) ("alpha").data d = 0 :=
    fun d => score_empty_idf rfl _ d
  have hpick : pickBest (groupOccs (findWordOccurrences (mkParser 1 1)
      [⟨0, ("alpha").data⟩] 0 3)) [("alpha").data] [(("alpha").data, 5)] =
      some ⟨("alpha").data, 0⟩ := by decide
  constructor
  · rw [analyze_two_targets (by decide) (by decide) hs hpick hpick rfl]
    rfl
  · rw [analyze_two_targets (by decide) (by decide) hs hpick hpick rfl]
    rfl

/-! ### Invariants of the grouping and best-word loops -/

theorem lookupA_eq_none {α β : Type _} [DecidableEq α] {k : α} :
    ∀ {m : List (α × β)}, lookupA k m = none ↔ k ∉ m.map Prod.fst := by
  intro m
  induction m with
  | nil => simp [lookupA]
  | cons p ps ih =>
    by_cases h : p.1 = k
    · simp [lookupA, h]
    · simp only [lookupA, h, Bool.false_eq_true, if_neg, not_false_eq_true,
        List.map_cons, List.mem_cons, ih]
      constructor
      · intro hk
        exact fun hc => hc.elim (fun he => h he.symm) hk
      · intro hk hc
        exact hk (Or.inr hc)

theorem lookupA_map_value {α β γ : Type _} [DecidableEq α] (g : α → β → γ) (k : α) :
    ∀ m : List (α × β),
      lookupA k (m.map fun pr => (pr.1, g pr.1 pr.2)) = (lookupA k m).map fun v => g k v
  | [] => rfl
  | p :: ps => by
    by_cases h : p.1 = k
    · subst h
      simp [lookupA]
    · simp [lookupA, h, lookupA_map_value g k ps]

/-- Well-formedness of the occurrence-group map: groups are nonempty and
hold occurrences of their own key word. -/
def groupsWF (m : List (List Char × List WordOccurrence)) : Prop :=
  ∀ w occs, lookupA w m = some occs → occs ≠ [] ∧ ∀ o ∈ occs, o.Word = w

theorem addOcc_groupsWF {m : List (List Char × List WordOccurrence)}
    {o : WordOccurrence} (h : groupsWF m) : groupsWF (addOcc m o) := by
  unfold addOcc
  rcases hx : lookupA o.Word m with _ | occs0
  · intro w occs hw
    rw [lookupA_append] at hw
    by_cases hin : (lookupA w m).isSome
    · rw [if_pos hin] at hw
      exact h w occs hw
    · rw [if_neg hin] at hw
      by_cases hww : o.Word = w
      · subst hww
        simp only [lookupA, if_pos, Option.some.injEq] at hw
        subst hw
        exact ⟨by simp, by simp⟩
      · simp [lookupA, hww] at hw
  · have hmap : (m.map fun pr => if pr.1 = o.Word then (pr.1, pr.2 ++ [o]) else pr) =
        m.map fun pr => (pr.1, if pr.1 = o.Word then pr.2 ++ [o] else pr.2) := by
      refine List.map_congr_left ?_
      intro pr _
      by_cases hh : pr.1 = o.Word <;> simp [hh]
    intro w occs hw
    rw [hmap, lookupA_map_value (fun k v => if k = o.Word then v ++ [o] else v)] at hw
    rcases Option.map_eq_some'.mp hw with ⟨occs1, hocc1, rfl⟩
    obtain ⟨hne, hall⟩ := h w occs1 hocc1
    by_cases hww : w = o.Word
    · subst hww
      simp only [if_pos]
      refine ⟨by simp, ?_⟩
      intro o' ho'
      rcases List.mem_append.mp ho' with ho' | ho'
      · exact hall o' ho'
      · rcases List.mem_singleton.mp ho' with rfl
        rfl
    · simp only [hww, Bool.false_eq_true, if_neg, not_false_eq_true]
      exact ⟨hne, hall⟩

theorem foldl_addOcc_groupsWF :
    ∀ (os : List WordOccurrence) (m : List (List Char × List WordOccurrence)),
      groupsWF m → groupsWF (os.foldl addOcc m)
  | [], _, h => h
  | o :: os, m, h => by
    rw [List.foldl_cons]
    exact foldl_addOcc_groupsWF os _ (addOcc_groupsWF h)

theorem groupOccs_wf (os : List WordOccurrence) : groupsWF (groupOccs os) :=
  foldl_addOcc_groupsWF os [] (fun w occs hw => by simp [lookupA] at hw)

/-- The running accumulator of the best-word loop: either still at its
initial value, or a recorded winner with its strictly positive frequency. -/
def accOk (groups : List (List Char × List WordOccurrence))
    (tfreq : List (List Char × Int)) (acc : Option WordOccurrence × Int) : Prop :=
  (acc.1 = none ∧ acc.2 = 0) ∨
    (0 < acc.2 ∧ ∃ w occs, lookupA w groups = some occs
      ∧ lookupA w tfreq = some acc.2 ∧ acc.1 = occs.head?)

theorem accOk_nonneg {groups tfreq acc} (h : accOk groups tfreq acc) : 0 ≤ acc.2 := by
  rcases h with ⟨_, h2⟩ | ⟨h1, _⟩
  · omega
  · omega

theorem pickBest_foldl_spec (groups : List (List Char × List WordOccurrence))
    (tfreq : List (List Char × Int)) :
    ∀ (order : List (List Char)) (acc : Option WordOccurrence × Int),
      accOk groups tfreq acc →
      accOk groups tfreq (order.foldl (pickBestStep groups tfreq) acc)
      ∧ acc.2 ≤ (order.foldl (pickBestStep groups tfreq) acc).2
      ∧ ∀ w' ∈ order, ∀ occs', lookupA w' groups = some occs' →
          ∀ f', lookupA w' tfreq = some f' →
            f' ≤ (order.foldl (pickBestStep groups tfreq) acc).2
  | [], acc, h => ⟨h, le_refl _, by simp⟩
  | w :: ws, acc, h => by
    rw [List.foldl_cons]
    rcases hg : lookupA w groups with _ | occs
    · have step_eq : pickBestStep groups tfreq acc w = acc := by
        simp [pickBestStep, hg]
      rw [step_eq]
      obtain ⟨h1, h2, h3⟩ := pickBest_foldl_spec groups tfreq ws acc h
      refine ⟨h1, h2, ?_⟩
      intro w' hw' occs' hocc' f' hf'
      rcases List.mem_cons.mp hw' with rfl | hw'
      · rw [hg] at hocc'
        cases hocc'
      · exact h3 w' hw' occs' hocc' f' hf'
    · rcases hf : lookupA w tfreq with _ | freq
      · have step_eq : pickBestStep groups tfreq acc w = acc := by
          simp [pickBestStep, hg, hf]
        rw [step_eq]
        obtain ⟨h1, h2, h3⟩ := pickBest_foldl_spec groups tfreq ws acc h
        refine ⟨h1, h2, ?_⟩
        intro w' hw' occs' hocc' f' hf'
        rcases List.mem_cons.mp hw' with rfl | hw'
        · rw [hf] at hf'
          cases hf'
        · exact h3 w' hw' occs' hocc' f' hf'
      · by_cases hlt : acc.2 < freq
        · have step_eq : pickBestStep groups tfreq acc w = (occs.head?, freq) := by
            simp [pickBestStep, hg, hf, hlt]
          rw [step_eq]
          have hok : accOk groups tfreq (occs.head?, freq) :=
            Or.inr ⟨by have := accOk_nonneg h; omega, w, occs, hg, hf, rfl⟩
          obtain ⟨h1, h2, h3⟩ := pickBest_foldl_spec groups tfreq ws (occs.head?, freq) hok
          refine ⟨h1, by simp at h2 ⊢; omega, ?_⟩
          intro w' hw' occs' hocc' f' hf'
          rcases List.mem_cons.mp hw' with rfl | hw'
          · rw [hf] at hf'
            have hfe : f' = freq := (Option.some.inj hf').symm
            subst hfe
            simpa using h2
          · exact h3 w' hw' occs' hocc' f' hf'
        · have step_eq : pickBestStep groups tfreq acc w = acc := by
            simp [pickBestStep, hg, hf, hlt]
          rw [step_eq]
          obtain ⟨h1, h2, h3⟩ := pickBest_foldl_spec groups tfreq ws acc h
          refine ⟨h1, h2, ?_⟩
          intro w' hw' occs' hocc' f' hf'
          rcases List.mem_cons.mp hw' with rfl | hw'
          · rw [hf] at hf'
            have hfe : f' = freq := (Option.some.inj hf').symm
            subst hfe
            omega
          · exact h3 w' hw' occs' hocc' f' hf'

/-- Specification of the best-word loop: the winner is the head occurrence
of a group whose key has a strictly positive target frequency, maximal over
every candidate the loop visits. -/
theorem pickBest_spec {groups : List (List Char × List WordOccurrence)}
    {tfreq : List (List Char × Int)} {order : List (List Char)}
    {bo : WordOccurrence} (h : pickBest groups order tfreq = some bo) :
    ∃ w occs f, lookupA w groups = some occs ∧ occs.head? = some bo
      ∧ lookupA w tfreq = some f ∧ 0 < f
      ∧ ∀ w' ∈ order, ∀ occs', lookupA w' groups = some occs' →
          ∀ f', lookupA w' tfreq = some f' → f' ≤ f := by
  obtain ⟨h1, _, h3⟩ := pickBest_foldl_spec groups tfreq order (none, 0)
    (Or.inl ⟨rfl, rfl⟩)
  unfold pickBest at h
  rcases h1 with ⟨hnone, _⟩ | ⟨hpos, w, occs, hg, hf, hacc⟩
  · rw [hnone] at h
    cases h
  · rw [hacc] at h
    exact ⟨w, occs, _, hg, h, hf, hpos, h3⟩

/-- The property of every surviving suggestion: it sits at its own key
position, names the source, meets the threshold, and comes from some target
document other than the source, whose score it carries; its linked word has
a strictly positive frequency in the target that is maximal among all
candidate words the term loop visits. -/
def suggOK (src : Document) (content : List Char)
    (groups : List (List Char × List WordOccurrence)) (termOrder : List (List Char))
    (minScore : ℝ) (s : BM25Scorer) (T : Document → Prop)
    (pr : Nat × LinkSuggestion) : Prop :=
  pr.2.Position = pr.1 ∧ pr.2.SourcePath = src.Path ∧ minScore ≤ pr.2.Score
  ∧ ∃ t, T t ∧ t.Path ≠ src.Path ∧ pr.2.TargetPath = t.Path
      ∧ pr.2.Score = score s content t
      ∧ ∃ f, lookupA pr.2.WordToLink t.WordFreq = some f ∧ 0 < f
        ∧ ∀ w' ∈ termOrder, ∀ occs', lookupA w' groups = some occs' →
            ∀ f', lookupA w' t.WordFreq = some f' → f' ≤ f

theorem updateSuggestion_eq_new {m : List (Nat × LinkSuggestion)} {pos : Nat}
    {sg : LinkSuggestion} (h : lookupA pos m = none) :
    updateSuggestion m pos sg = m ++ [(pos, sg)] := by
  unfold updateSuggestion
  rw [h]

theorem updateSuggestion_eq_replace {m : List (Nat × LinkSuggestion)} {pos : Nat}
    {sg existing : LinkSuggestion} (h : lookupA pos m = some existing)
    (hlt : existing.Score < sg.Score) :
    updateSuggestion m pos sg =
      m.map fun pr => if pr.1 = pos then (pos, sg) else pr := by
  unfold updateSuggestion
  rw [h]
  show (if existing.Score < sg.Score then
      m.map fun pr => if pr.1 = pos then (pos, sg) else pr
    else m) = m.map fun pr => if pr.1 = pos then (pos, sg) else pr
  rw [if_pos hlt]

theorem updateSuggestion_eq_keep {m : List (Nat × LinkSuggestion)} {pos : Nat}
    {sg existing : LinkSuggestion} (h : lookupA pos m = some existing)
    (hlt : ¬ existing.Score < sg.Score) :
    updateSuggestion m pos sg = m := by
  unfold updateSuggestion
  rw [h]
  show (if existing.Score < sg.Score then
      m.map fun pr => if pr.1 = pos then (pos, sg) else pr
    else m) = m
  rw [if_neg hlt]

theorem analyzeStep_eq_some {src : Document} {content : List Char}
    {groups : List (List Char × List WordOccurrence)} {termOrder : List (List Char)}
    {minScore : ℝ} {s : BM25Scorer} {m : List (Nat × LinkSuggestion)}
    {target : Document} {bo : WordOccurrence}
    (hpath : ¬ target.Path = src.Path) (hsc : minScore ≤ score s content target)
    (hpk : pickBest groups termOrder target.WordFreq = some bo) :
    analyzeStep src content groups termOrder minScore s m target =
      updateSuggestion m bo.Position
        ⟨src.Path, target.Path, score s content target, bo.Word, bo.Position⟩ := by
  unfold analyzeStep
  rw [if_neg hpath, if_pos hsc, hpk]

/-- Every entry of `updateSuggestion m pos sg` is an entry of `m` or the new
pair `(pos, sg)`, and distinctness of the stored positions is preserved. -/
theorem updateSuggestion_inv {Q : Nat × LinkSuggestion → Prop}
    {m : List (Nat × LinkSuggestion)} {pos : Nat} {sg : LinkSuggestion}
    (hm1 : (m.map Prod.fst).Nodup) (hm2 : ∀ pr ∈ m, Q pr) (hsg : Q (pos, sg)) :
    ((updateSuggestion m pos sg).map Prod.fst).Nodup
    ∧ ∀ pr ∈ updateSuggestion m pos sg, Q pr := by
  rcases hlk : lookupA pos m with _ | existing
  · rw [updateSuggestion_eq_new hlk]
    constructor
    · rw [List.map_append, List.nodup_append]
      refine ⟨hm1, List.nodup_singleton _, ?_⟩
      intro a ha hb
      rcases List.mem_singleton.mp hb with rfl
      exact lookupA_eq_none.mp hlk ha
    · intro pr hpr
      rcases List.mem_append.mp hpr with hpr | hpr
      · exact hm2 pr hpr
      · rcases List.mem_singleton.mp hpr with rfl
        exact hsg
  · by_cases hlt : existing.Score < sg.Score
    · rw [updateSuggestion_eq_replace hlk hlt]
      constructor
      · have hkeys : ((m.map fun pr => if pr.1 = pos then (pos, sg) else pr).map
            Prod.fst) = m.map Prod.fst := by
          rw [List.map_map]
          refine List.map_congr_left ?_
          intro pr _
          by_cases hh : pr.1 = pos <;> simp [hh]
        rw [hkeys]
        exact hm1
      · intro pr hpr
        rcases List.mem_map.mp hpr with ⟨pr0, hpr0, rfl⟩
        by_cases hh : pr0.1 = pos
        · simp only [hh, if_pos]
          exact hsg
        · simp only [hh, Bool.false_eq_true, if_neg, not_false_eq_true]
          exact hm2 pr0 hpr0
    · rw [updateSuggestion_eq_keep hlk hlt]
      exact ⟨hm1, hm2⟩

theorem analyzeStep_inv {src : Document} {content : List Char}
    {groups : List (List Char × List WordOccurrence)} {termOrder : List (List Char)}
    {minScore : ℝ} {s : BM25Scorer} {T : Document → Prop}
    (hgw : groupsWF groups)
    {m : List (Nat × LinkSuggestion)} {target : Document} (hT : T target)
    (hm1 : (m.map Prod.fst).Nodup)
    (hm2 : ∀ pr ∈ m, suggOK src content groups termOrder minScore s T pr) :
    ((analyzeStep src content groups termOrder minScore s m target).map
      Prod.fst).Nodup
    ∧ ∀ pr ∈ analyzeStep src content groups termOrder minScore s m target,
        suggOK src content groups termOrder minScore s T pr := by
  by_cases hpath : target.Path = src.Path
  · unfold analyzeStep
    rw [if_pos hpath]
    exact ⟨hm1, hm2⟩
  · by_cases hsc : minScore ≤ score s content target
    · rcases hpk : pickBest groups termOrder target.WordFreq with _ | bo
      · unfold analyzeStep
        rw [if_neg hpath, if_pos hsc, hpk]
        exact ⟨hm1, hm2⟩
      · rw [analyzeStep_eq_some hpath hsc hpk]
        have hnew : suggOK src content groups termOrder minScore s T
            (bo.Position, ⟨src.Path, target.Path, score s content target,
              bo.Word, bo.Position⟩) := by
          refine ⟨rfl, rfl, hsc, target, hT, hpath, rfl, rfl, ?_⟩
          obtain ⟨w, occs, f, hg, hhead, hf, hfpos, hmax⟩ := pickBest_spec hpk
          have hbomem : bo ∈ occs := List.mem_of_mem_head? hhead
          have hwword : bo.Word = w := (hgw w occs hg).2 bo hbomem
          refine ⟨f, ?_, hfpos, hmax⟩
          show lookupA bo.Word target.WordFreq = some f
          rw [hwword]
          exact hf
        exact updateSuggestion_inv hm1 hm2 hnew
    · unfold analyzeStep
      rw [if_neg hpath, if_neg hsc]
      exact ⟨hm1, hm2⟩

theorem analyze_foldl_inv {src : Document} {content : List Char}
    {groups : List (List Char × List WordOccurrence)} {termOrder : List (List Char)}
    {minScore : ℝ} {s : BM25Scorer} {T : Document → Prop}
    (hgw : groupsWF groups) :
    ∀ (ts : List Document) (m : List (Nat × LinkSuggestion)),
      (∀ t ∈ ts, T t) →
      (m.map Prod.fst).Nodup →
      (∀ pr ∈ m, suggOK src content groups termOrder minScore s T pr) →
      (((ts.foldl (analyzeStep src content groups termOrder minScore s) m).map
        Prod.fst).Nodup
      ∧ ∀ pr ∈ ts.foldl (analyzeStep src content groups termOrder minScore s) m,
          suggOK src content groups termOrder minScore s T pr)
  | [], m, _, h1, h2 => ⟨h1, h2⟩
  | t :: ts, m, hT, h1, h2 => by
    rw [List.foldl_cons]
    obtain ⟨h1', h2'⟩ := analyzeStep_inv hgw (hT t (List.mem_cons_self _ _)) h1 h2
    exact analyze_foldl_inv hgw ts _ (fun x hx => hT x (List.mem_cons_of_mem _ hx)) h1' h2'

/-- Claim C9 (amended): for a fixed iteration order over target documents
and over candidate terms, the analysis is a pure function of its inputs; at
most one suggestion survives per byte position (strictly higher score
replaces, ties keep the first-seen target), and each suggestion links the
visited word of maximal frequency in its target document.  Because Go map
iteration order is unspecified, distinct runs may visit targets and terms
in different orders and — as the counterexample shows — produce different
suggestion sets when scores tie. -/
theorem claim_C9_amended (p : ParserT) (src : Document) (content : List Char)
    (runs : List TextRun) (targets : List Document) (termOrder : List (List Char))
    (minScore : ℝ) (s : BM25Scorer) :
    ((analyzeSingleDocument p src content runs targets termOrder minScore s).map
      Prod.fst).Nodup
    ∧ ∀ pr ∈ analyzeSingleDocument p src content runs targets termOrder minScore s,
        suggOK src content (groupOccs (findWordOccurrences p runs 0 3)) termOrder
          minScore s (· ∈ targets) pr := by
  unfold analyzeSingleDocument
  exact analyze_foldl_inv (groupOccs_wf _) targets [] (fun _ h => h) (by simp) (by simp)

end InternalLink
